import Mathlib

/-!
# Verification of the eldenbingo statistics / achievement derivation engine

Shallow embedding of the client-side derivation logic of the eldenbingo
repository:

* the duration parser `parseTimeToMinutes` / `formatMinutesToTime`
  (`src/App.tsx`),
* the global stats aggregator `calculateStats` of the `useStats` hook,
* the player-profile stats `calculateStats`, the achievement evaluator
  `calculateAchievements` (with its date helpers) and the head-to-head
  calculator `calculateHeadToHead` of the `usePlayerProfile` hook,
* the static `ACHIEVEMENTS` catalog (`src/types/index.ts`).

Modelling conventions:

* JS numbers are modelled by `ℚ` (durations, averages, rates) or by
  `Nat`/`Int` for integer counters; none of the claims depend on binary
  floating-point rounding.
* ISO date strings, which the code only ever compares through
  `new Date(s).getTime()`, are modelled by their epoch-milliseconds value
  (a `Nat`, field `played_at`).
* `is_winner?: boolean` is an `Option Bool`; JS truthiness of such a value
  holds exactly for `some true`, and `=== true` likewise.
* `metadata.time_taken?: string` is an `Option String`; JS truthiness of
  such a value holds exactly for `some s` with `s ≠ ""`.
* JS `Array.prototype.sort` with a numeric comparator is a stable sort; it
  is modelled by `List.insertionSort` (which is stable) with the relation
  "comparator ≤ 0".
* JS `Map` iterates in key-insertion order; it is modelled by an
  association list to which fresh keys are appended at the end.
-/

namespace EldenBingo

/-! ## Model of the JS regex scanning used by `parseTimeToMinutes`

`parseTimeToMinutes` extracts the first match of `/(\d+)\s*h/i` (and
likewise for `m` and `s`) from the input.  A leftmost match of this regex
is found by scanning positions left to right; at a position the attempt
takes the maximal digit run, skips whitespace, and requires the unit
letter (case-insensitively). -/

/-- The regex `\d` class. -/
def isDigitChar (c : Char) : Bool := 48 ≤ c.toNat && c.toNat ≤ 57

/-- The regex `\s` class (restricted to the ASCII whitespace that can
occur in the repo's duration strings). -/
def isWsChar (c : Char) : Bool :=
  c.toNat = 32 || c.toNat = 9 || c.toNat = 10 || c.toNat = 13

/-- ASCII lower-casing, the effect of the `i` regex flag on the unit
letter. -/
def lowerChar (c : Char) : Char :=
  if 65 ≤ c.toNat ∧ c.toNat ≤ 90 then Char.ofNat (c.toNat + 32) else c

/-- Maximal leading digit run of a character list (greedy `\d+`), together
with the rest. -/
def splitDigits : List Char → List Char × List Char
  | [] => ([], [])
  | c :: cs =>
    if isDigitChar c then
      let p := splitDigits cs
      (c :: p.1, p.2)
    else ([], c :: cs)

/-- Numeric value of a decimal digit character. -/
def digitVal (c : Char) : Nat := c.toNat - 48

/-- Value of a digit run, as read by `parseInt(…, 10)`. -/
def digitsVal (ds : List Char) : Nat :=
  ds.foldl (fun acc c => acc * 10 + digitVal c) 0

/-- Skip a maximal run of whitespace (`\s*`). -/
def skipWs : List Char → List Char
  | [] => []
  | c :: cs => if isWsChar c then skipWs cs else c :: cs

/-- Attempt to match `(\d+)\s*u` (unit letter `u`, case-insensitive)
at the head of the list; returns the numeric value of the digit group. -/
def matchAt (u : Char) (l : List Char) : Option Nat :=
  match splitDigits l with
  | ([], _) => none
  | (ds, rest) =>
    match skipWs rest with
    | c :: _ => if lowerChar c = u then some (digitsVal ds) else none
    | [] => none

/-- First (leftmost) match of `(\d+)\s*u` in the list, as
`String.prototype.match` finds it. -/
def findUnit (u : Char) : List Char → Option Nat
  | [] => none
  | c :: cs =>
    match matchAt u (c :: cs) with
    | some v => some v
    | none => findUnit u cs

/-- `parseTimeToMinutes` from `src/App.tsx` (the duration parser used
throughout; the identically named export of `lib/utils` consumed by the
stats hooks is this same function): extracts `<N>h`, `<N>m`, `<N>s`
patterns and accumulates `hours*60 + minutes + seconds/60`.  The leading
`if (!timeStr …) return 0` guard fires on the empty string. -/
def parseTimeToMinutes (timeStr : String) : ℚ :=
  if timeStr = "" then 0
  else
    let cs := timeStr.toList
    let hours : ℚ := match findUnit 'h' cs with | some n => (n : ℚ) | none => 0
    let mins : ℚ := match findUnit 'm' cs with | some n => (n : ℚ) | none => 0
    let secs : ℚ := match findUnit 's' cs with | some n => (n : ℚ) | none => 0
    hours * 60 + mins + secs / 60

/-! ## Model of number-to-string conversion and `formatMinutesToTime` -/

/-- The decimal digit character of `d` (for `d < 10`). -/
def digitChar (d : Nat) : Char := Char.ofNat (48 + d)

/-- Fuel-driven decimal rendering (little fuel bound `n + 1` always
suffices; the fuel only makes the recursion structural). -/
def natToCharsAux : Nat → Nat → List Char
  | 0, _ => []
  | fuel + 1, n =>
    if n < 10 then [digitChar n]
    else natToCharsAux fuel (n / 10) ++ [digitChar (n % 10)]

/-- Decimal digit list of a natural number, the model of the JS
number-to-string conversion in template literals. -/
def natToChars (n : Nat) : List Char := natToCharsAux (n + 1) n

/-- Decimal string of a natural number. -/
def toDecimalString (n : Nat) : String := String.mk (natToChars n)

/-- JS `Math.round` (round half toward `+∞`). -/
def jsRound (x : ℚ) : ℤ := ⌊x + 1 / 2⌋

/-- `formatMinutesToTime` from `src/App.tsx`: renders `"Xh Ym"`, `"Xh"`
or `"Ym"`, with the sub-minute sentinel `"< 1m"` for values below 1.
`minutes % 60` on a non-negative JS number equals
`minutes - 60 * Math.floor(minutes / 60)`. -/
def formatMinutesToTime (minutes : ℚ) : String :=
  if minutes < 1 then "< 1m"
  else
    let hours : Nat := (⌊minutes / 60⌋).toNat
    let mins : Nat := (jsRound (minutes - 60 * ⌊minutes / 60⌋)).toNat
    if hours > 0 ∧ mins > 0 then
      toDecimalString hours ++ "h " ++ toDecimalString mins ++ "m"
    else if hours > 0 then
      toDecimalString hours ++ "h"
    else
      toDecimalString mins ++ "m"

example : findUnit 'h' "3h 42m".toList = some 3 := by decide
example : findUnit 'm' "3h 42m".toList = some 42 := by decide
example : findUnit 's' "3h 42m".toList = none := by decide
example : findUnit 'm' "< 1m".toList = some 1 := by decide

example : parseTimeToMinutes "3h 42m" = 222 := by
  rw [parseTimeToMinutes, if_neg (by decide)]
  norm_num [show findUnit 'h' ['3', 'h', ' ', '4', '2', 'm'] = some 3 from by decide,
    show findUnit 'm' ['3', 'h', ' ', '4', '2', 'm'] = some 42 from by decide,
    show findUnit 's' ['3', 'h', ' ', '4', '2', 'm'] = none from by decide]

example : parseTimeToMinutes "" = 0 := by rw [parseTimeToMinutes, if_pos rfl]

/-! ## Data model

Only the fields actually read by the derivation functions are embedded;
ids, titles, boards, colors of `match_players` rows, and the various
`created_at` columns are never consulted by the embedded logic. -/

structure Player where
  id : String
  name : String
  color : String
deriving DecidableEq

structure MatchMetadata where
  time_taken : Option String
deriving DecidableEq

structure MatchPlayerWithDetails where
  player_id : String
  is_winner : Option Bool
  player : Player
deriving DecidableEq

structure MatchWithDetails where
  played_at : Nat
  outcome : String
  metadata : MatchMetadata
  match_players : List MatchPlayerWithDetails
deriving DecidableEq

/-! ## The stats aggregator: `calculateStats` of the `useStats` hook

Namespace `UseStats` embeds `src/hooks/useStats.ts` (the hook computing
the global statistics page).  `chartData` (the function
`calculateChartData`) is a presentational series no claim concerns and is
not embedded; the remaining result fields are all embedded. -/

namespace UseStats

structure PlayerStats where
  playerId : String
  playerName : String
  playerColor : String
  wins : Nat
  «matches» : Nat
  winRate : ℚ
  totalMinutes : ℚ
  avgMinutes : ℚ
  currentStreak : Nat
  longestStreak : Nat
deriving DecidableEq

structure MatchDurationStats where
  longest : Option MatchWithDetails
  shortest : Option MatchWithDetails
  averageMinutes : ℚ
  totalMinutes : ℚ
deriving DecidableEq

structure Stats where
  totalHours : ℚ
  totalMatches : Nat
  playerStats : List PlayerStats
  matchDurationStats : MatchDurationStats
deriving DecidableEq

/-- One entry of the per-player `playerMatchHistory` map. -/
structure HistEntry where
  date : Nat
  isWin : Bool
deriving DecidableEq

/-- The mutable locals of `calculateStats` accumulated over the
`matches.forEach` loop.  `shortestMinutes = none` models the initial
`Infinity`. -/
structure CalcState where
  playerMap : List PlayerStats
  totalMinutes : ℚ
  matchesWithTime : Nat
  longestMatch : Option MatchWithDetails
  shortestMatch : Option MatchWithDetails
  longestMinutes : ℚ
  shortestMinutes : Option ℚ
  playerMatchHistory : List (String × List HistEntry)

def initState : CalcState := ⟨[], 0, 0, none, none, 0, none, []⟩

/-- `playerMap.set(playerId, f(playerMap.get(playerId)))` for a key
already present: JS `Map` updates in place, keeping insertion order. -/
def updatePlayer (m : List PlayerStats) (pid : String)
    (f : PlayerStats → PlayerStats) : List PlayerStats :=
  m.map fun ps => if ps.playerId = pid then f ps else ps

/-- The body of the inner `match.match_players.forEach(mp => …)` loop. -/
def processMP (m : MatchWithDetails) (st : CalcState)
    (mp : MatchPlayerWithDetails) : CalcState :=
  let playerId := mp.player.id
  let isWin := mp.is_winner = some true
  let matchMinutes : ℚ :=
    match m.metadata.time_taken with
    | some s => if s = "" then 0 else parseTimeToMinutes s
    | none => 0
  let pm :=
    if st.playerMap.any (·.playerId = playerId) then st.playerMap
    else st.playerMap ++
      [⟨playerId, mp.player.name, mp.player.color, 0, 0, 0, 0, 0, 0, 0⟩]
  let pm := updatePlayer pm playerId fun ps =>
    { ps with
      «matches» := ps.«matches» + 1
      wins := if isWin then ps.wins + 1 else ps.wins
      totalMinutes :=
        if matchMinutes > 0 then ps.totalMinutes + matchMinutes
        else ps.totalMinutes }
  let hist :=
    if st.playerMatchHistory.any (·.1 = playerId) then st.playerMatchHistory
    else st.playerMatchHistory ++ [(playerId, [])]
  let hist := hist.map fun e =>
    if e.1 = playerId then (e.1, e.2 ++ [⟨m.played_at, isWin⟩]) else e
  { st with playerMap := pm, playerMatchHistory := hist }

/-- First statement of the duration block: bump `totalMinutes` and
`matchesWithTime`. -/
def durTotals (st : CalcState) (minutes : ℚ) : CalcState :=
  { st with
    totalMinutes := st.totalMinutes + minutes
    matchesWithTime := st.matchesWithTime + 1 }

/-- Second statement: `if (minutes > longestMinutes) { … }`. -/
def durLongest (m : MatchWithDetails) (st : CalcState) (minutes : ℚ) :
    CalcState :=
  if minutes > st.longestMinutes then
    { st with longestMinutes := minutes, longestMatch := some m }
  else st

/-- Third statement: `if (minutes < shortestMinutes) { … }` (`none`
plays `Infinity`). -/
def durShortest (m : MatchWithDetails) (st : CalcState) (minutes : ℚ) :
    CalcState :=
  if (match st.shortestMinutes with
      | none => true
      | some q => decide (minutes < q)) = true then
    { st with shortestMinutes := some minutes, shortestMatch := some m }
  else st

/-- The match-duration block at the head of the outer
`matches.forEach(match => …)` loop body, its three statements in source
order. -/
def processMatchDuration (st : CalcState) (m : MatchWithDetails) : CalcState :=
  match m.metadata.time_taken with
  | some s =>
    if s = "" then st
    else
      let minutes := parseTimeToMinutes s
      if minutes > 0 then
        durShortest m (durLongest m (durTotals st minutes) minutes) minutes
      else st
  | none => st

/-- The body of the outer `matches.forEach(match => …)` loop: the match
duration block followed by the participant loop. -/
def processMatch (st : CalcState) (m : MatchWithDetails) : CalcState :=
  m.match_players.foldl (processMP m) (processMatchDuration st m)

/-- The per-player streak loop of `calculateStats`: iterate the
date-sorted history from the most recent entry backwards; the flag
`first` models the test `i === history.length - 1`. -/
structure StreakAcc where
  currentStreak : Nat
  longestStreak : Nat
  tempStreak : Nat
  first : Bool

def streakStep (acc : StreakAcc) (e : HistEntry) : StreakAcc :=
  if e.isWin then
    let temp := acc.tempStreak + 1
    { currentStreak := if acc.first then temp else acc.currentStreak
      longestStreak := max acc.longestStreak temp
      tempStreak := temp
      first := false }
  else
    { acc with tempStreak := 0, first := false }

/-- `history.sort((a, b) => dateA - dateB)` then the backwards `for`
loop; returns `(currentStreak, longestStreak)`. -/
def part013Streaks (history : List HistEntry) : Nat × Nat :=
  let sorted := history.insertionSort fun a b => a.date ≤ b.date
  let acc := sorted.reverse.foldl streakStep ⟨0, 0, 0, true⟩
  (acc.currentStreak, acc.longestStreak)

/-- The leaderboard comparator `(a, b) => { … }` of `calculateStats`;
`localeCompare` is modelled as code-point string comparison (no claim
depends on the collation of distinct names). -/
def strCmp (a b : String) : Int := if a < b then -1 else if b < a then 1 else 0

def psCmp (a b : PlayerStats) : Int :=
  if b.wins ≠ a.wins then (b.wins : Int) - a.wins
  else if b.«matches» ≠ a.«matches» then (b.«matches» : Int) - a.«matches»
  else strCmp a.playerName b.playerName

def psLe (a b : PlayerStats) : Prop := psCmp a b ≤ 0

instance : DecidableRel psLe := fun a b => inferInstanceAs (Decidable (psCmp a b ≤ 0))

/-- `calculateStats` from the `useStats` hook: one pass accumulating the
duration stats and the per-player map, then the win-rate/average pass,
the streak pass over `playerMatchHistory`, and the leaderboard sort. -/
def calculateStats («matches» : List MatchWithDetails) : Stats :=
  let st := «matches».foldl processMatch initState
  let pm := st.playerMap.map fun stat =>
    { stat with
      winRate := if stat.«matches» > 0 then ((stat.wins : ℚ) / stat.«matches») * 100 else 0
      avgMinutes := if stat.«matches» > 0 then stat.totalMinutes / stat.«matches» else 0 }
  let pm := st.playerMatchHistory.foldl
    (fun acc e =>
      let s := part013Streaks e.2
      updatePlayer acc e.1 fun ps =>
        { ps with currentStreak := s.1, longestStreak := s.2 })
    pm
  { totalHours := st.totalMinutes / 60
    totalMatches := «matches».length
    playerStats := pm.insertionSort psLe
    matchDurationStats :=
      { longest := st.longestMatch
        shortest := st.shortestMatch
        averageMinutes :=
          if st.matchesWithTime > 0 then st.totalMinutes / st.matchesWithTime else 0
        totalMinutes := st.totalMinutes } }

end UseStats

/-! ## The achievement catalog (`src/types/index.ts`) -/

structure Achievement where
  id : String
  name : String
  description : String
  rarity : String
deriving DecidableEq

def ACHIEVEMENTS : List Achievement := [
  ⟨"first-blood", "First Blood", "Win your first match", "common"⟩,
  ⟨"veteran", "Veteran", "Win 10 matches", "rare"⟩,
  ⟨"champion", "Champion", "Win 25 matches", "epic"⟩,
  ⟨"legend", "Legend", "Win 50 matches", "legendary"⟩,
  ⟨"hot-streak", "Hot Streak", "Win 3 matches in a row", "rare"⟩,
  ⟨"unstoppable", "Unstoppable", "Win 5 matches in a row", "epic"⟩,
  ⟨"elden-lord", "Elden Lord", "Win 10 matches in a row", "legendary"⟩,
  ⟨"speed-demon", "Speed Demon", "Win a match in under 1 hour", "rare"⟩,
  ⟨"lightning", "Lightning", "Win a match in under 45 minutes", "epic"⟩,
  ⟨"dedicated", "Dedicated", "Play 10 matches", "common"⟩,
  ⟨"regular", "Regular", "Play 25 matches", "rare"⟩,
  ⟨"addicted", "Addicted", "Play 50 matches", "epic"⟩,
  ⟨"blackout-king", "Blackout King", "Win a blackout match", "rare"⟩,
  ⟨"perfectionist", "Perfectionist", "Win 5 blackout matches", "epic"⟩,
  ⟨"survivor", "Survivor", "Finish a match over 3 hours", "rare"⟩,
  ⟨"rivalry", "Rivalry", "Play 10 matches against the same player", "rare"⟩]

/-! ## The player profile hook: `usePlayerProfile`

Namespace `UsePlayerProfile` embeds `calculateStats`,
`calculateAchievements` (with the `getNth…Date`/`getStreakDate` helpers)
and `calculateHeadToHead` of `src/hooks/usePlayerProfile.ts`. -/

namespace UsePlayerProfile

/-- One `match_players` row joined with its match, as the hook fetches
them (`{ is_winner?: boolean; match: MatchWithDetails }`; `match` is a
Lean keyword, hence the quoted field name). -/
structure MPEntry where
  is_winner : Option Bool
  «match» : MatchWithDetails
deriving DecidableEq

/-- The profile `stats` record. `losses = totalMatches - wins` is a plain
JS subtraction, hence an `Int`. -/
structure ProfileStats where
  totalMatches : Nat
  wins : Nat
  losses : Int
  winRate : ℚ
  totalMinutes : ℚ
  avgMinutes : ℚ
  currentStreak : Nat
  longestStreak : Nat
  blackoutWins : Nat
  bingoWins : Nat
deriving DecidableEq

/-- The sort relation of
`[...matchPlayers].sort((a, b) => dateA - dateB)`. -/
def dateLe (a b : MPEntry) : Prop := a.«match».played_at ≤ b.«match».played_at

instance : DecidableRel dateLe :=
  fun a b => inferInstanceAs (Decidable (a.«match».played_at ≤ b.«match».played_at))

/-- Accumulator of the `sortedMatchPlayers.forEach(mp => …)` loop of the
profile `calculateStats`. -/
structure PAcc where
  wins : Nat
  blackoutWins : Nat
  bingoWins : Nat
  totalMinutes : ℚ
  matchesWithTime : Nat
  tempStreak : Nat
  longestStreak : Nat
deriving DecidableEq

def pStep (acc : PAcc) (mp : MPEntry) : PAcc :=
  let isWin := mp.is_winner = some true
  let acc :=
    if isWin then
      { acc with
        wins := acc.wins + 1
        tempStreak := acc.tempStreak + 1
        longestStreak := max acc.longestStreak (acc.tempStreak + 1)
        blackoutWins :=
          if mp.«match».outcome = "blackout" then acc.blackoutWins + 1
          else acc.blackoutWins
        bingoWins :=
          if mp.«match».outcome = "bingo" then acc.bingoWins + 1
          else acc.bingoWins }
    else { acc with tempStreak := 0 }
  match mp.«match».metadata.time_taken with
  | some s =>
    if s = "" then acc
    else
      let minutes := parseTimeToMinutes s
      if minutes > 0 then
        { acc with
          totalMinutes := acc.totalMinutes + minutes
          matchesWithTime := acc.matchesWithTime + 1 }
      else acc
  | none => acc

/-- The trailing-wins loop
`for (i = len - 1; i >= 0; i--) { if (sorted[i].is_winner) currentStreak++ else break }`. -/
def trailingWins (l : List MPEntry) : Nat :=
  (l.reverse.takeWhile fun mp => mp.is_winner = some true).length

/-- The profile `calculateStats(matches, matchPlayers)`. -/
def calculateStats («matches» : List MatchWithDetails)
    (matchPlayers : List MPEntry) : ProfileStats :=
  let sortedMatchPlayers := matchPlayers.insertionSort dateLe
  let acc := sortedMatchPlayers.foldl pStep ⟨0, 0, 0, 0, 0, 0, 0⟩
  let currentStreak := trailingWins sortedMatchPlayers
  let totalMatches := «matches».length
  { totalMatches := totalMatches
    wins := acc.wins
    losses := (totalMatches : Int) - acc.wins
    winRate :=
      if totalMatches > 0 then ((acc.wins : ℚ) / totalMatches) * 100 else 0
    totalMinutes := acc.totalMinutes
    avgMinutes :=
      if acc.matchesWithTime > 0 then acc.totalMinutes / acc.matchesWithTime
      else 0
    currentStreak := currentStreak
    longestStreak := acc.longestStreak
    blackoutWins := acc.blackoutWins
    bingoWins := acc.bingoWins }

/-- A `PlayerAchievement` as the hook builds it.  The `achievement` field
models the possibly-undefined `ACHIEVEMENTS.find(…)` result (the `!`
assertion has no runtime force), and `unlockedAt : Option Nat` models the
unlock date string, `none` standing for the blank string `''`. -/
structure PlayerAchievement where
  achievement : Option Achievement
  unlockedAt : Option Nat
deriving DecidableEq

/-- `getNthWinDate`: date of the `n`-th (1-based) entry with truthy
`is_winner`, scanning forward; `''` (here `none`) when there is none. -/
def getNthWinDate (matchPlayers : List MPEntry) (n : Nat) : Option Nat :=
  go matchPlayers 0
where
  go : List MPEntry → Nat → Option Nat
  | [], _ => none
  | mp :: rest, count =>
    if mp.is_winner = some true then
      if count + 1 = n then some mp.«match».played_at else go rest (count + 1)
    else go rest count

/-- `getStreakDate`: date at which a run of `streak` consecutive wins is
first completed (the counter resets on a non-win). -/
def getStreakDate (matchPlayers : List MPEntry) (streak : Nat) : Option Nat :=
  go matchPlayers 0
where
  go : List MPEntry → Nat → Option Nat
  | [], _ => none
  | mp :: rest, count =>
    if mp.is_winner = some true then
      if count + 1 = streak then some mp.«match».played_at
      else go rest (count + 1)
    else go rest 0

/-- `getNthBlackoutDate`: date of the `n`-th winning blackout entry. -/
def getNthBlackoutDate (matchPlayers : List MPEntry) (n : Nat) : Option Nat :=
  go matchPlayers 0
where
  go : List MPEntry → Nat → Option Nat
  | [], _ => none
  | mp :: rest, count =>
    if mp.is_winner = some true ∧ mp.«match».outcome = "blackout" then
      if count + 1 = n then some mp.«match».played_at else go rest (count + 1)
    else go rest count

/-- The filter predicate of `speedWins` / `lightningWins` (a win with a
recorded duration parsing into `(0, limit)`). -/
def isTimedWinUnder (limit : ℚ) (mp : MPEntry) : Bool :=
  if mp.is_winner = some true then
    match mp.«match».metadata.time_taken with
    | some s =>
      if s = "" then false
      else
        let minutes := parseTimeToMinutes s
        decide (minutes > 0 ∧ minutes < limit)
    | none => false
  else false

/-- The filter predicate of `longMatches` (any entry, win or not, with a
recorded duration parsing to at least 180). -/
def isLongMatch (mp : MPEntry) : Bool :=
  match mp.«match».metadata.time_taken with
  | some s =>
    if s = "" then false
    else decide (parseTimeToMinutes s ≥ 180)
  | none => false

/-- `calculateAchievements(matchPlayers, stats)`: the thirteen unlock
branches in source order, then the `unlocked.filter(a => a.achievement)`
pass (which tests the `achievement` field only). -/
def calculateAchievements (matchPlayers : List MPEntry)
    (stats : ProfileStats) : List PlayerAchievement :=
  let sortedMatchPlayers := matchPlayers.insertionSort dateLe
  let unlocked : List PlayerAchievement :=
    (if stats.wins ≥ 1 then
      [⟨ACHIEVEMENTS.find? (·.id = "first-blood"),
        (sortedMatchPlayers.find? fun mp => mp.is_winner = some true).map
          (·.«match».played_at)⟩]
    else []) ++
    (if stats.wins ≥ 10 then
      [⟨ACHIEVEMENTS.find? (·.id = "veteran"), getNthWinDate sortedMatchPlayers 10⟩]
    else []) ++
    (if stats.wins ≥ 25 then
      [⟨ACHIEVEMENTS.find? (·.id = "champion"), getNthWinDate sortedMatchPlayers 25⟩]
    else []) ++
    (if stats.wins ≥ 50 then
      [⟨ACHIEVEMENTS.find? (·.id = "legend"), getNthWinDate sortedMatchPlayers 50⟩]
    else []) ++
    (if stats.longestStreak ≥ 3 then
      [⟨ACHIEVEMENTS.find? (·.id = "hot-streak"), getStreakDate sortedMatchPlayers 3⟩]
    else []) ++
    (if stats.longestStreak ≥ 5 then
      [⟨ACHIEVEMENTS.find? (·.id = "unstoppable"), getStreakDate sortedMatchPlayers 5⟩]
    else []) ++
    (if stats.longestStreak ≥ 10 then
      [⟨ACHIEVEMENTS.find? (·.id = "elden-lord"), getStreakDate sortedMatchPlayers 10⟩]
    else []) ++
    (match sortedMatchPlayers.filter (isTimedWinUnder 60) with
     | w :: _ =>
       [⟨ACHIEVEMENTS.find? (·.id = "speed-demon"), some w.«match».played_at⟩]
     | [] => []) ++
    (match sortedMatchPlayers.filter (isTimedWinUnder 45) with
     | w :: _ =>
       [⟨ACHIEVEMENTS.find? (·.id = "lightning"), some w.«match».played_at⟩]
     | [] => []) ++
    (if stats.totalMatches ≥ 10 then
      [⟨ACHIEVEMENTS.find? (·.id = "dedicated"),
        sortedMatchPlayers[9]?.map (·.«match».played_at)⟩]
    else []) ++
    (if stats.totalMatches ≥ 25 then
      [⟨ACHIEVEMENTS.find? (·.id = "regular"),
        sortedMatchPlayers[24]?.map (·.«match».played_at)⟩]
    else []) ++
    (if stats.totalMatches ≥ 50 then
      [⟨ACHIEVEMENTS.find? (·.id = "addicted"),
        sortedMatchPlayers[49]?.map (·.«match».played_at)⟩]
    else []) ++
    (if stats.blackoutWins ≥ 1 then
      [⟨ACHIEVEMENTS.find? (·.id = "blackout-king"),
        (sortedMatchPlayers.find? fun mp =>
          mp.is_winner = some true ∧ mp.«match».outcome = "blackout").map
            (·.«match».played_at)⟩]
    else []) ++
    (if stats.blackoutWins ≥ 5 then
      [⟨ACHIEVEMENTS.find? (·.id = "perfectionist"),
        getNthBlackoutDate sortedMatchPlayers 5⟩]
    else []) ++
    (match sortedMatchPlayers.filter isLongMatch with
     | w :: _ => [⟨ACHIEVEMENTS.find? (·.id = "survivor"), some w.«match».played_at⟩]
     | [] => [])
  unlocked.filter (·.achievement.isSome)

/-! ### `calculateHeadToHead` -/

/-- One value of the `opponents` map (`{ player, wins, losses }`). -/
structure H2HAcc where
  player : Player
  wins : Nat
  losses : Nat
deriving DecidableEq

/-- The body of the inner loop over the opponents of one match: ensure
the map entry exists, then bump `wins` when the subject's record has a
truthy `is_winner`, else `losses` when the opponent's does. -/
def h2hProcessOpp (myWin : Bool) (acc : List (String × H2HAcc))
    (opp : MatchPlayerWithDetails) : List (String × H2HAcc) :=
  let acc :=
    if acc.any (·.1 = opp.player_id) then acc
    else acc ++ [(opp.player_id, ⟨opp.player, 0, 0⟩)]
  acc.map fun e =>
    if e.1 = opp.player_id then
      (e.1,
        if myWin then { e.2 with wins := e.2.wins + 1 }
        else if opp.is_winner = some true then
          { e.2 with losses := e.2.losses + 1 }
        else e.2)
    else e

/-- The body of the `matches.forEach(match => …)` loop: skip matches
without the subject's own record, then tally every other participant. -/
def h2hProcessMatch (playerId : String) (acc : List (String × H2HAcc))
    (m : MatchWithDetails) : List (String × H2HAcc) :=
  match m.match_players.find? (·.player_id = playerId) with
  | none => acc
  | some myRecord =>
    (m.match_players.filter (¬ ·.player_id = playerId)).foldl
      (h2hProcessOpp (myRecord.is_winner = some true)) acc

structure H2HRecord where
  opponent : Player
  wins : Nat
  losses : Nat
  total : Nat
deriving DecidableEq

/-- The sort relation of `.sort((a, b) => b.total - a.total)`. -/
def h2hLe (a b : H2HRecord) : Prop := (b.total : Int) - a.total ≤ 0

instance : DecidableRel h2hLe :=
  fun a b => inferInstanceAs (Decidable ((b.total : Int) - a.total ≤ 0))

/-- `calculateHeadToHead(playerId, matches)`. -/
def calculateHeadToHead (playerId : String)
    («matches» : List MatchWithDetails) : List H2HRecord :=
  let opponents := «matches».foldl (h2hProcessMatch playerId) []
  (opponents.map fun e =>
    H2HRecord.mk e.2.player e.2.wins e.2.losses (e.2.wins + e.2.losses)).insertionSort
    h2hLe

end UsePlayerProfile

/-! ## Concrete fixtures used by the counterexamples and witnesses -/

def p1 : Player := ⟨"p1", "P1", "#9b59b6"⟩

def oppA : Player := ⟨"A", "Ann", "#e74c3c"⟩

def oppB : Player := ⟨"B", "Bob", "#5dade2"⟩

/-- A single-participant bingo match for `p1` with no recorded duration. -/
def mkSolo (t : Nat) (w : Option Bool) : MatchWithDetails :=
  ⟨t, "bingo", ⟨none⟩, [⟨"p1", w, p1⟩]⟩

/-- Six matches for `p1`: three wins, a loss, then two wins. -/
def streakMatches : List MatchWithDetails :=
  [mkSolo 1000 (some true), mkSolo 2000 (some true), mkSolo 3000 (some true),
   mkSolo 4000 (some false), mkSolo 5000 (some true), mkSolo 6000 (some true)]

/-- The same six matches as profile `match_players` rows. -/
def streakEntries : List UsePlayerProfile.MPEntry :=
  [⟨some true, mkSolo 1000 (some true)⟩, ⟨some true, mkSolo 2000 (some true)⟩,
   ⟨some true, mkSolo 3000 (some true)⟩, ⟨some false, mkSolo 4000 (some false)⟩,
   ⟨some true, mkSolo 5000 (some true)⟩, ⟨some true, mkSolo 6000 (some true)⟩]

/-- Three straight wins (unlocking the hot-streak badge). -/
def winRunEntries : List UsePlayerProfile.MPEntry :=
  [⟨some true, mkSolo 1000 (some true)⟩, ⟨some true, mkSolo 2000 (some true)⟩,
   ⟨some true, mkSolo 3000 (some true)⟩]

/-- A loss whose `played_at` falls between the wins of `winRunEntries`
(a backfilled upload: the new row is added at the end of the fetched
list but sorts into the middle). -/
def backfillLoss : UsePlayerProfile.MPEntry :=
  ⟨some false, mkSolo 2500 (some false)⟩

/-- A loss played after every entry of `streakEntries`. -/
def lateLoss : UsePlayerProfile.MPEntry :=
  ⟨some false, mkSolo 9000 (some false)⟩

/-- Two matches shared by `p1` and `A` in which nobody won, then one
match that `p1` won against `B`. -/
def h2hMatches : List MatchWithDetails :=
  [⟨1000, "abandoned", ⟨none⟩, [⟨"p1", none, p1⟩, ⟨"A", none, oppA⟩]⟩,
   ⟨2000, "draw", ⟨none⟩, [⟨"p1", none, p1⟩, ⟨"A", none, oppA⟩]⟩,
   ⟨3000, "bingo", ⟨none⟩, [⟨"p1", some true, p1⟩, ⟨"B", some false, oppB⟩]⟩]

/-- Number of matches in which both `playerId` and `oppId` appear as
participants (the claim's "shared matches"). -/
def sharedMatchCount (playerId oppId : String)
    (ms : List MatchWithDetails) : Nat :=
  (ms.filter fun m =>
    m.match_players.any (·.player_id = playerId) &&
      m.match_players.any (·.player_id = oppId)).length

/-! ## C8 -/

/-- C8: `calculateStats` applied to the empty match list returns, without
error, `totalMatches = 0`, empty `playerStats`, no longest and no
shortest match, and zero totals and averages. -/
theorem c8_empty_stats :
    UseStats.calculateStats [] =
      ⟨0, 0, [], ⟨none, none, 0, 0⟩⟩ := by
  rw [UseStats.calculateStats]
  norm_num [UseStats.initState]

/-! ## C1 -/

/-- C1: the claim says the aggregator's `currentStreak` is the length of
the trailing run of consecutive wins (2 for a player who wins three in a
row, loses, then wins two, with `longestStreak = 3`).  The `useStats`
aggregator instead reports `currentStreak = 1` on that history — its
backwards loop assigns `currentStreak` only at the iteration
`i === history.length - 1`, so the reported value is never more than 1 —
while the profile hook's `calculateStats` on the same history returns the
trailing run 2, as the claim (and the spec's worked example) demands. -/
theorem c1_currentStreak_divergence :
    (UseStats.calculateStats streakMatches).playerStats.map
        (fun r => (r.currentStreak, r.longestStreak)) = [(1, 3)] ∧
      (UsePlayerProfile.calculateStats streakMatches streakEntries).currentStreak
          = 2 ∧
      (UsePlayerProfile.calculateStats streakMatches streakEntries).longestStreak
          = 3 := by
  refine ⟨?_, by decide, by decide⟩
  decide

/-! ## C10 and C3: head-to-head records -/

/-- Every record the head-to-head calculator emits is literally built as
`{ opponent, wins, losses, total: wins + losses }`. -/
theorem h2h_total_eq_wins_add_losses (pid : String)
    (ms : List MatchWithDetails) (r : UsePlayerProfile.H2HRecord)
    (hr : r ∈ UsePlayerProfile.calculateHeadToHead pid ms) :
    r.total = r.wins + r.losses := by
  rw [UsePlayerProfile.calculateHeadToHead, List.mem_insertionSort] at hr
  rcases List.mem_map.mp hr with ⟨e, -, rfl⟩
  rfl

/-- C10: in every record returned by `calculateHeadToHead`, `total`
equals `wins + losses`; a shared match in which neither the subject nor
the opponent wins increments none of the three counters, so `total` can
be smaller than the number of shared matches (concretely: opponent `A`
shares two no-winner matches with `p1` yet carries
`wins = losses = total = 0`). -/
theorem c10_total_eq_wins_add_losses :
    (∀ pid ms r, r ∈ UsePlayerProfile.calculateHeadToHead pid ms →
        r.total = r.wins + r.losses) ∧
      (UsePlayerProfile.calculateHeadToHead "p1" h2hMatches).map
          (fun r => (r.opponent.id, r.wins, r.losses, r.total)) =
        [("B", 1, 0, 1), ("A", 0, 0, 0)] ∧
      sharedMatchCount "p1" "A" h2hMatches = 2 :=
  ⟨h2h_total_eq_wins_add_losses, by decide, by decide⟩

/-- C3 counterexample: the claim says the returned records are sorted
descending by shared-match count.  With two winnerless matches shared
with `A` and a single won match shared with `B`, the code returns the `B`
record (1 shared match) before the `A` record (2 shared matches): it
sorts by `wins + losses`, which ignores winnerless shared matches. -/
theorem c3_not_sorted_by_shared_count :
    (UsePlayerProfile.calculateHeadToHead "p1" h2hMatches).map
        (·.opponent.id) = ["B", "A"] ∧
      sharedMatchCount "p1" "B" h2hMatches = 1 ∧
      sharedMatchCount "p1" "A" h2hMatches = 2 ∧ 1 < 2 := by
  refine ⟨by decide, by decide, by decide, by decide⟩

/-- The keys (in insertion order) of the `opponents` map the head-to-head
fold builds. -/
def h2hOpponentKeys (playerId : String) (ms : List MatchWithDetails) :
    List String :=
  (ms.foldl (UsePlayerProfile.h2hProcessMatch playerId) []).map (·.1)

namespace UsePlayerProfile

theorem keys_map_fst {α : Type} (l : List (String × α))
    (g : String × α → String × α) (hg : ∀ e, (g e).1 = e.1) :
    (l.map g).map (·.1) = l.map (·.1) := by
  rw [List.map_map]
  exact List.map_congr_left fun e _ => hg e

theorem keys_processOpp (w : Bool) (acc : List (String × H2HAcc))
    (o : MatchPlayerWithDetails) :
    (h2hProcessOpp w acc o).map (·.1) =
      if acc.any (·.1 = o.player_id) then acc.map (·.1)
      else acc.map (·.1) ++ [o.player_id] := by
  have hg : ∀ e : String × H2HAcc,
      ((fun e : String × H2HAcc =>
        if e.1 = o.player_id then
          (e.1,
            if w then { e.2 with wins := e.2.wins + 1 }
            else if o.is_winner = some true then
              { e.2 with losses := e.2.losses + 1 }
            else e.2)
        else e) e).1 = e.1 := by
    intro e
    by_cases he : e.1 = o.player_id <;> simp [he]
  simp only [h2hProcessOpp]
  cases hany : acc.any (·.1 = o.player_id) with
  | true =>
    simp only [hany, if_true]
    exact keys_map_fst _ _ hg
  | false =>
    simp only [hany, Bool.false_eq_true, if_false]
    rw [keys_map_fst _ _ hg, List.map_append]
    rfl

theorem key_mem_processOpp {k : String} (w : Bool)
    {acc : List (String × H2HAcc)} (o : MatchPlayerWithDetails)
    (hk : k ∈ acc.map (·.1)) : k ∈ (h2hProcessOpp w acc o).map (·.1) := by
  rw [keys_processOpp]
  split
  · exact hk
  · exact List.mem_append_left _ hk

theorem key_self_processOpp (w : Bool) (acc : List (String × H2HAcc))
    (o : MatchPlayerWithDetails) :
    o.player_id ∈ (h2hProcessOpp w acc o).map (·.1) := by
  rw [keys_processOpp]
  split
  case isTrue h =>
    rcases List.any_eq_true.mp h with ⟨e, he, hid⟩
    exact List.mem_map.mpr ⟨e, he, of_decide_eq_true hid⟩
  case isFalse h =>
    exact List.mem_append_right _ (List.mem_singleton.mpr rfl)

theorem key_mem_foldOpp {k : String} (w : Bool)
    (l : List MatchPlayerWithDetails) (acc : List (String × H2HAcc))
    (hk : k ∈ acc.map (·.1)) :
    k ∈ (l.foldl (h2hProcessOpp w) acc).map (·.1) := by
  induction l generalizing acc with
  | nil => exact hk
  | cons o l ih => exact ih _ (key_mem_processOpp w o hk)

theorem key_self_foldOpp {o : MatchPlayerWithDetails} (w : Bool)
    {l : List MatchPlayerWithDetails} (acc : List (String × H2HAcc))
    (ho : o ∈ l) :
    o.player_id ∈ (l.foldl (h2hProcessOpp w) acc).map (·.1) := by
  induction l generalizing acc with
  | nil => cases ho
  | cons x l ih =>
    rcases List.mem_cons.mp ho with rfl | ho
    · exact key_mem_foldOpp w l _ (key_self_processOpp w acc o)
    · exact ih _ ho

theorem key_mem_processMatch {k : String} (pid : String)
    {acc : List (String × H2HAcc)} (m : MatchWithDetails)
    (hk : k ∈ acc.map (·.1)) :
    k ∈ (h2hProcessMatch pid acc m).map (·.1) := by
  rw [h2hProcessMatch]
  cases m.match_players.find? (·.player_id = pid) with
  | none => exact hk
  | some myr => exact key_mem_foldOpp _ _ _ hk

theorem key_self_processMatch {pid : String} {acc : List (String × H2HAcc)}
    {m : MatchWithDetails} {o : MatchPlayerWithDetails}
    (hmy : ∃ my ∈ m.match_players, my.player_id = pid)
    (ho : o ∈ m.match_players) (hne : ¬o.player_id = pid) :
    o.player_id ∈ (h2hProcessMatch pid acc m).map (·.1) := by
  rw [h2hProcessMatch]
  cases hfind : m.match_players.find? (·.player_id = pid) with
  | none =>
    rcases hmy with ⟨my, hmem, hid⟩
    have := List.find?_eq_none.mp hfind my hmem
    simp [hid] at this
  | some myr =>
    refine key_self_foldOpp _ _ (List.mem_filter.mpr ⟨ho, ?_⟩)
    simpa using hne

theorem key_mem_foldMatches {k : String} (pid : String)
    (l : List MatchWithDetails) (acc : List (String × H2HAcc))
    (hk : k ∈ acc.map (·.1)) :
    k ∈ (l.foldl (h2hProcessMatch pid) acc).map (·.1) := by
  induction l generalizing acc with
  | nil => exact hk
  | cons m l ih => exact ih _ (key_mem_processMatch pid m hk)

instance : IsTotal H2HRecord h2hLe :=
  ⟨fun a b => by rw [h2hLe, h2hLe]; omega⟩

instance : IsTrans H2HRecord h2hLe :=
  ⟨fun a b c => by rw [h2hLe, h2hLe, h2hLe]; omega⟩

end UsePlayerProfile

/-- C3 (amended): the records returned by `calculateHeadToHead` are
sorted descending by `total = wins + losses` (winnerless shared matches
do not count toward the sort key); a shared match in which neither the
subject nor the opponent wins still makes the opponent appear — its key
enters the `opponents` map and every map entry yields exactly one output
record. -/
theorem c3_sorted_by_total_and_appearance (pid : String)
    (ms : List MatchWithDetails) :
    List.Pairwise (fun a b => b.total ≤ a.total)
        (UsePlayerProfile.calculateHeadToHead pid ms) ∧
      (UsePlayerProfile.calculateHeadToHead pid ms).length =
        (h2hOpponentKeys pid ms).length ∧
      (∀ m ∈ ms, (∃ my ∈ m.match_players, my.player_id = pid) →
        ∀ o ∈ m.match_players, o.player_id ≠ pid →
          o.player_id ∈ h2hOpponentKeys pid ms) ∧
      (∀ r ∈ UsePlayerProfile.calculateHeadToHead pid ms,
        r.total = r.wins + r.losses) := by
  refine ⟨?_, ?_, ?_, fun r hr => h2h_total_eq_wins_add_losses pid ms r hr⟩
  · have hs := List.sorted_insertionSort UsePlayerProfile.h2hLe
      ((ms.foldl (UsePlayerProfile.h2hProcessMatch pid) []).map fun e =>
        UsePlayerProfile.H2HRecord.mk e.2.player e.2.wins e.2.losses
          (e.2.wins + e.2.losses))
    rw [UsePlayerProfile.calculateHeadToHead]
    exact hs.imp fun {a b} h => by
      have : (b.total : Int) - a.total ≤ 0 := h
      omega
  · rw [UsePlayerProfile.calculateHeadToHead, h2hOpponentKeys]
    simp [List.length_insertionSort]
  · intro m hm hmy o ho hne
    rcases List.append_of_mem hm with ⟨s, t, rfl⟩
    rw [h2hOpponentKeys, List.foldl_append, List.foldl_cons]
    exact UsePlayerProfile.key_mem_foldMatches pid t _
      (UsePlayerProfile.key_self_processMatch hmy ho hne)

/-! ## C9: longest streak dominates current streak -/

namespace UseStats

theorem streakStep_inv {acc : StreakAcc} (e : HistEntry)
    (h : acc.currentStreak ≤ acc.longestStreak) :
    (streakStep acc e).currentStreak ≤ (streakStep acc e).longestStreak := by
  rw [streakStep]
  by_cases hw : e.isWin = true
  · cases hf : acc.first <;> simp [hw, hf] <;> omega
  · simp only [Bool.not_eq_true] at hw
    simpa [hw] using h

theorem streakFold_inv (l : List HistEntry) (acc : StreakAcc)
    (h : acc.currentStreak ≤ acc.longestStreak) :
    (l.foldl streakStep acc).currentStreak ≤
      (l.foldl streakStep acc).longestStreak := by
  induction l generalizing acc with
  | nil => exact h
  | cons e l ih => exact ih _ (streakStep_inv e h)

theorem part013Streaks_fst_le_snd (history : List HistEntry) :
    (part013Streaks history).1 ≤ (part013Streaks history).2 :=
  streakFold_inv _ _ (Nat.le_refl 0)

theorem mem_updatePlayer (P : PlayerStats → Prop) {m : List PlayerStats}
    {pid : String} {f : PlayerStats → PlayerStats} {ps : PlayerStats}
    (hmem : ps ∈ updatePlayer m pid f) (hm : ∀ q ∈ m, P q)
    (hf : ∀ q, P q → P (f q)) : P ps := by
  rw [updatePlayer] at hmem
  rcases List.mem_map.mp hmem with ⟨q, hq, rfl⟩
  by_cases he : q.playerId = pid
  · simpa [he] using hf q (hm q hq)
  · simpa [he] using hm q hq

/-- The streak-order invariant `currentStreak ≤ longestStreak` holds of
every entry of the player map after the first aggregation pass. -/
theorem processMP_inv {m : MatchWithDetails} {st : CalcState}
    {mp : MatchPlayerWithDetails}
    (h : ∀ ps ∈ st.playerMap, ps.currentStreak ≤ ps.longestStreak) :
    ∀ ps ∈ (processMP m st mp).playerMap,
      ps.currentStreak ≤ ps.longestStreak := by
  intro ps hps
  rw [processMP] at hps
  refine mem_updatePlayer (fun q => q.currentStreak ≤ q.longestStreak) hps ?_
    fun q hq => hq
  intro q hq
  by_cases hany : st.playerMap.any (·.playerId = mp.player.id) = true
  · exact h q (by simpa [hany] using hq)
  · have hq2 : q ∈ st.playerMap ∨
        q = ⟨mp.player.id, mp.player.name, mp.player.color,
          0, 0, 0, 0, 0, 0, 0⟩ := by
      simpa [hany] using hq
    rcases hq2 with hq' | rfl
    · exact h q hq'
    · exact Nat.le_refl 0

theorem durTotals_playerMap (st : CalcState) (q : ℚ) :
    (durTotals st q).playerMap = st.playerMap := rfl

theorem durLongest_playerMap (m : MatchWithDetails) (st : CalcState)
    (q : ℚ) : (durLongest m st q).playerMap = st.playerMap := by
  rw [durLongest]; split <;> rfl

theorem durShortest_playerMap (m : MatchWithDetails) (st : CalcState)
    (q : ℚ) : (durShortest m st q).playerMap = st.playerMap := by
  rw [durShortest]; split <;> rfl

theorem durTotals_playerMatchHistory (st : CalcState) (q : ℚ) :
    (durTotals st q).playerMatchHistory = st.playerMatchHistory := rfl

theorem durLongest_playerMatchHistory (m : MatchWithDetails)
    (st : CalcState) (q : ℚ) :
    (durLongest m st q).playerMatchHistory = st.playerMatchHistory := by
  rw [durLongest]; split <;> rfl

theorem durShortest_playerMatchHistory (m : MatchWithDetails)
    (st : CalcState) (q : ℚ) :
    (durShortest m st q).playerMatchHistory = st.playerMatchHistory := by
  rw [durShortest]; split <;> rfl

theorem processMatchDuration_playerMap (st : CalcState)
    (m : MatchWithDetails) :
    (processMatchDuration st m).playerMap = st.playerMap := by
  rw [processMatchDuration]
  cases m.metadata.time_taken with
  | none => rfl
  | some s =>
    by_cases hs : s = "" <;>
      simp [hs, durShortest_playerMap, durLongest_playerMap,
        durTotals_playerMap] <;> split_ifs <;>
      simp [durShortest_playerMap, durLongest_playerMap, durTotals_playerMap]

theorem processMatchDuration_playerMatchHistory (st : CalcState)
    (m : MatchWithDetails) :
    (processMatchDuration st m).playerMatchHistory =
      st.playerMatchHistory := by
  rw [processMatchDuration]
  cases m.metadata.time_taken with
  | none => rfl
  | some s =>
    by_cases hs : s = "" <;>
      simp [hs, durShortest_playerMatchHistory, durLongest_playerMatchHistory,
        durTotals_playerMatchHistory] <;> split_ifs <;>
      simp [durShortest_playerMatchHistory, durLongest_playerMatchHistory,
        durTotals_playerMatchHistory]

theorem processMPFold_inv {m : MatchWithDetails}
    (l : List MatchPlayerWithDetails) (st : CalcState)
    (h : ∀ ps ∈ st.playerMap, ps.currentStreak ≤ ps.longestStreak) :
    ∀ ps ∈ (l.foldl (processMP m) st).playerMap,
      ps.currentStreak ≤ ps.longestStreak := by
  induction l generalizing st with
  | nil => exact h
  | cons mp l ih => exact ih _ (processMP_inv h)

theorem processMatchFold_inv (ms : List MatchWithDetails) (st : CalcState)
    (h : ∀ ps ∈ st.playerMap, ps.currentStreak ≤ ps.longestStreak) :
    ∀ ps ∈ (ms.foldl processMatch st).playerMap,
      ps.currentStreak ≤ ps.longestStreak := by
  induction ms generalizing st with
  | nil => exact h
  | cons m ms ih =>
    refine ih _ ?_
    rw [processMatch]
    refine processMPFold_inv _ _ ?_
    rw [processMatchDuration_playerMap]
    exact h

theorem streakPhase_inv (hist : List (String × List HistEntry))
    (pm : List PlayerStats)
    (h : ∀ ps ∈ pm, ps.currentStreak ≤ ps.longestStreak) :
    ∀ ps ∈ hist.foldl
        (fun acc e =>
          let s := part013Streaks e.2
          updatePlayer acc e.1 fun q =>
            { q with currentStreak := s.1, longestStreak := s.2 })
        pm,
      ps.currentStreak ≤ ps.longestStreak := by
  induction hist generalizing pm with
  | nil => exact h
  | cons e hist ih =>
    refine ih _ ?_
    intro ps hps
    refine mem_updatePlayer (fun r => r.currentStreak ≤ r.longestStreak)
      hps h fun q _ => ?_
    exact part013Streaks_fst_le_snd e.2

end UseStats

/-- C9: in every row of the `playerStats` returned by the stats
aggregator, `longestStreak` is at least `currentStreak`. -/
theorem c9_longest_ge_current (ms : List MatchWithDetails) (i : Nat)
    (h : i < (UseStats.calculateStats ms).playerStats.length) :
    ((UseStats.calculateStats ms).playerStats.get ⟨i, h⟩).currentStreak ≤
      ((UseStats.calculateStats ms).playerStats.get ⟨i, h⟩).longestStreak := by
  have hmem := List.get_mem (UseStats.calculateStats ms).playerStats i h
  generalize ((UseStats.calculateStats ms).playerStats.get ⟨i, h⟩) = ps at hmem ⊢
  rw [UseStats.calculateStats, List.mem_insertionSort] at hmem
  refine UseStats.streakPhase_inv _ _ ?_ ps hmem
  intro q hq
  rcases List.mem_map.mp hq with ⟨q', hq', rfl⟩
  exact UseStats.processMatchFold_inv ms UseStats.initState
    (by intro r hr; cases hr) q' hq'

/-- C9 witness: the six-match fixture has a leaderboard row, and the
theorem applies to it. -/
theorem c9_witness :
    0 < (UseStats.calculateStats streakMatches).playerStats.length ∧
      ((UseStats.calculateStats streakMatches).playerStats.get
          ⟨0, by decide⟩).currentStreak ≤
        ((UseStats.calculateStats streakMatches).playerStats.get
          ⟨0, by decide⟩).longestStreak :=
  ⟨by decide, c9_longest_ge_current streakMatches 0 (by decide)⟩

/-! ## C2: the basis of the per-player average -/

/-- The nonzero parsed duration of a match (`none` when the duration
text is missing, empty, or parses to `0`); the duration basis the spec's
averages speak about.  `parseTimeToMinutes "" = 0`, so the missing
truthiness guard changes nothing. -/
def nzDur (m : MatchWithDetails) : Option ℚ :=
  let q : ℚ :=
    match m.metadata.time_taken with
    | some s => parseTimeToMinutes s
    | none => 0
  if 0 < q then some q else none

/-- `p1` wins one timed match (`"1h"`), then loses an untimed one. -/
def c2Matches : List MatchWithDetails :=
  [⟨1000, "bingo", ⟨some "1h"⟩, [⟨"p1", some true, p1⟩]⟩,
   ⟨2000, "bingo", ⟨none⟩, [⟨"p1", some false, p1⟩]⟩]

theorem parse_1h : parseTimeToMinutes "1h" = 60 := by
  rw [parseTimeToMinutes, if_neg (by decide)]
  norm_num [show findUnit 'h' ['1', 'h'] = some 1 from by decide,
    show findUnit 'm' ['1', 'h'] = none from by decide,
    show findUnit 's' ['1', 'h'] = none from by decide]

/-- C2 counterexample: the claim says a player's `avgMinutes` divides by
the number of their matches with a nonzero parsed duration.  `p1` has one
such match (60 parsed minutes), so the claim demands `avgMinutes = 60`;
the aggregator reports `30` — it divides the 60 total minutes by all 2
matches. -/
theorem c2_avg_basis_counterexample :
    (UseStats.calculateStats c2Matches).playerStats.map
        (fun r => (r.totalMinutes, r.avgMinutes)) = [(60, 30)] ∧
      (c2Matches.filter fun m => (nzDur m).isSome).length = 1 ∧
      (30 : ℚ) ≠ 60 / 1 := by
  refine ⟨?_, ?_, by norm_num⟩
  · norm_num [UseStats.calculateStats, c2Matches, UseStats.initState,
      UseStats.processMatch, UseStats.processMatchDuration, UseStats.processMP,
      UseStats.updatePlayer, UseStats.part013Streaks, UseStats.streakStep,
      List.insertionSort, List.orderedInsert, parse_1h, nzDur,
      show ¬("1h" = "") from by decide]
  · norm_num [c2Matches, nzDur, parse_1h, List.filter]

/-- The avg-basis invariant: a row's `avgMinutes` is its `totalMinutes`
over all of its `matches`. -/
def AvgInv (ps : UseStats.PlayerStats) : Prop :=
  ps.avgMinutes =
    if ps.«matches» > 0 then ps.totalMinutes / ps.«matches» else 0

namespace UseStats

/-- Any property is preserved by the streak pass when it is insensitive
to the two streak fields. -/
theorem streakPhase_pres (P : PlayerStats → Prop)
    (hist : List (String × List HistEntry)) (pm : List PlayerStats)
    (h : ∀ ps ∈ pm, P ps)
    (hf : ∀ q s1 s2, P q →
      P { q with currentStreak := s1, longestStreak := s2 }) :
    ∀ ps ∈ hist.foldl
        (fun acc e =>
          let s := part013Streaks e.2
          updatePlayer acc e.1 fun ps =>
            { ps with currentStreak := s.1, longestStreak := s.2 })
        pm,
      P ps := by
  induction hist generalizing pm with
  | nil => exact h
  | cons e hist ih =>
    refine ih _ ?_
    intro ps hps
    exact mem_updatePlayer P hps h fun q hq => hf q _ _ hq

end UseStats

/-- C2 (amended): every row of the returned `playerStats` has
`avgMinutes = totalMinutes / matches`, dividing by the row's total match
count — all of the player's matches, not only those with a nonzero
parsed duration (`0` when the player somehow has no matches), unlike the
global `averageMinutes`. -/
theorem c2_avg_divides_by_all_matches (ms : List MatchWithDetails)
    (i : Nat) (h : i < (UseStats.calculateStats ms).playerStats.length) :
    ((UseStats.calculateStats ms).playerStats.get ⟨i, h⟩).avgMinutes =
      if ((UseStats.calculateStats ms).playerStats.get ⟨i, h⟩).«matches» > 0
      then ((UseStats.calculateStats ms).playerStats.get ⟨i, h⟩).totalMinutes /
        ((UseStats.calculateStats ms).playerStats.get ⟨i, h⟩).«matches»
      else 0 := by
  have hmem := List.get_mem (UseStats.calculateStats ms).playerStats i h
  show AvgInv ((UseStats.calculateStats ms).playerStats.get ⟨i, h⟩)
  generalize ((UseStats.calculateStats ms).playerStats.get ⟨i, h⟩) = ps at hmem ⊢
  rw [UseStats.calculateStats, List.mem_insertionSort] at hmem
  refine UseStats.streakPhase_pres AvgInv _ _ ?_ (fun q s1 s2 hq => hq) ps hmem
  intro q hq
  rcases List.mem_map.mp hq with ⟨q', _, rfl⟩
  rfl

/-- C2 witness: the amended theorem applied to the first leaderboard row
of the six-match fixture. -/
theorem c2_witness :
    0 < (UseStats.calculateStats streakMatches).playerStats.length ∧
      ((UseStats.calculateStats streakMatches).playerStats.get
          ⟨0, by decide⟩).avgMinutes =
        if ((UseStats.calculateStats streakMatches).playerStats.get
            ⟨0, by decide⟩).«matches» > 0
        then ((UseStats.calculateStats streakMatches).playerStats.get
            ⟨0, by decide⟩).totalMinutes /
          ((UseStats.calculateStats streakMatches).playerStats.get
            ⟨0, by decide⟩).«matches»
        else 0 :=
  ⟨by decide, c2_avg_divides_by_all_matches streakMatches 0 (by decide)⟩

/-! ## C7: duration extremes and the global average -/

/-- The nonzero parsed durations of a match list, in input order. -/
def durList (ms : List MatchWithDetails) : List ℚ := ms.filterMap nzDur

/-- The maximum nonzero duration (0 when there is none), tracked exactly
as the aggregator's `longestMinutes` accumulator does. -/
def maxDur (ms : List MatchWithDetails) : ℚ := (durList ms).foldl max 0

/-- The minimum nonzero duration (`none` when there is none; the code's
`shortestMinutes` accumulator, whose `none` is `Infinity`). -/
def minDur? (ms : List MatchWithDetails) : Option ℚ :=
  (durList ms).foldl
    (fun o q => match o with | none => some q | some v => some (min v q)) none

theorem durList_append_single (l : List MatchWithDetails)
    (m : MatchWithDetails) :
    durList (l ++ [m]) =
      durList l ++ (match nzDur m with | some q => [q] | none => []) := by
  rw [durList, durList, List.filterMap_append]
  cases h : nzDur m <;> simp [List.filterMap, h]

theorem durList_pos (ms : List MatchWithDetails) :
    ∀ x ∈ durList ms, 0 < x := by
  intro x hx
  rcases List.mem_filterMap.mp hx with ⟨m, -, hm⟩
  rw [nzDur] at hm
  split at hm
  · exact (Option.some.injEq _ _ ▸ hm) ▸ (by assumption)
  · cases hm

theorem le_foldlMax_init (a : ℚ) (dl : List ℚ) : a ≤ dl.foldl max a := by
  induction dl generalizing a with
  | nil => exact le_refl a
  | cons y l ih => exact le_trans (le_max_left a y) (ih (max a y))

theorem foldlMax_le {dl : List ℚ} (a : ℚ) {x : ℚ} (hx : x ∈ dl) :
    x ≤ dl.foldl max a := by
  induction dl generalizing a with
  | nil => cases hx
  | cons y l ih =>
    rcases List.mem_cons.mp hx with rfl | hx
    · exact le_trans (le_max_right a x) (le_foldlMax_init _ l)
    · exact ih _ hx

theorem foldlMax_attain (a : ℚ) (dl : List ℚ) :
    dl.foldl max a = a ∨ dl.foldl max a ∈ dl := by
  induction dl generalizing a with
  | nil => exact Or.inl rfl
  | cons y l ih =>
    rcases ih (max a y) with h | h
    · rcases max_choice a y with hm | hm
      · exact Or.inl (by rw [List.foldl_cons, h, hm])
      · exact Or.inr (by rw [List.foldl_cons, h, hm]; exact List.mem_cons_self y l)
    · exact Or.inr (List.mem_cons_of_mem y h)

/-- The step of the `shortestMinutes` accumulator. -/
def minStep (o : Option ℚ) (q : ℚ) : Option ℚ :=
  match o with | none => some q | some v => some (min v q)

theorem minDur?_eq_foldl (ms : List MatchWithDetails) :
    minDur? ms = (durList ms).foldl minStep none := by
  rw [minDur?]
  congr 1

theorem minFold_eq_none {o : Option ℚ} {dl : List ℚ}
    (h : dl.foldl minStep o = none) : o = none ∧ dl = [] := by
  induction dl generalizing o with
  | nil => exact ⟨h, rfl⟩
  | cons y l ih =>
    rcases @ih (minStep o y) h with ⟨hstep, -⟩
    cases o <;> cases hstep

theorem minFold_some_le_acc {w v : ℚ} {dl : List ℚ}
    (h : dl.foldl minStep (some w) = some v) : v ≤ w := by
  induction dl generalizing w with
  | nil => cases h; exact le_refl _
  | cons y l ih =>
    have := @ih (min w y) h
    exact le_trans this (min_le_left w y)

theorem minFold_le {o : Option ℚ} {v : ℚ} {dl : List ℚ}
    (h : dl.foldl minStep o = some v) : ∀ x ∈ dl, v ≤ x := by
  induction dl generalizing o with
  | nil => intro x hx; cases hx
  | cons y l ih =>
    intro x hx
    rcases List.mem_cons.mp hx with rfl | hx
    · cases o with
      | none =>
        have h' : l.foldl minStep (some x) = some v := h
        exact minFold_some_le_acc h'
      | some u =>
        have h' : l.foldl minStep (some (min u x)) = some v := h
        exact le_trans (minFold_some_le_acc h') (min_le_right u x)
    · exact ih h x hx

theorem minFold_attain {o : Option ℚ} {v : ℚ} {dl : List ℚ}
    (h : dl.foldl minStep o = some v) : o = some v ∨ v ∈ dl := by
  induction dl generalizing o with
  | nil => exact Or.inl h
  | cons y l ih =>
    have h' : l.foldl minStep (minStep o y) = some v := h
    rcases ih h' with hstep | hv
    · cases o with
      | none =>
        simp only [minStep, Option.some.injEq] at hstep
        exact Or.inr (hstep ▸ List.mem_cons_self y l)
      | some u =>
        simp only [minStep, Option.some.injEq] at hstep
        rcases min_choice u y with hm | hm
        · exact Or.inl (by rw [← hstep, hm])
        · exact Or.inr (by rw [← hstep, hm]; exact List.mem_cons_self y l)
    · exact Or.inr (List.mem_cons_of_mem y hv)

namespace UseStats

/-- `processMP` never touches the duration accumulators. -/
theorem processMPFold_durFields (m : MatchWithDetails)
    (l : List MatchPlayerWithDetails) (st : CalcState) :
    (l.foldl (processMP m) st).totalMinutes = st.totalMinutes ∧
      (l.foldl (processMP m) st).matchesWithTime = st.matchesWithTime ∧
      (l.foldl (processMP m) st).longestMinutes = st.longestMinutes ∧
      (l.foldl (processMP m) st).shortestMinutes = st.shortestMinutes ∧
      (l.foldl (processMP m) st).longestMatch = st.longestMatch ∧
      (l.foldl (processMP m) st).shortestMatch = st.shortestMatch := by
  induction l generalizing st with
  | nil => exact ⟨rfl, rfl, rfl, rfl, rfl, rfl⟩
  | cons mp l ih => exact ih (processMP m st mp)

/-- The duration-tracking invariant of the aggregation fold. -/
def DurInv (processed : List MatchWithDetails) (st : CalcState) : Prop :=
  st.totalMinutes = (durList processed).sum ∧
    st.matchesWithTime = (durList processed).length ∧
    st.longestMinutes = maxDur processed ∧
    st.shortestMinutes = (durList processed).foldl minStep none ∧
    st.longestMatch =
      (if durList processed = [] then none
       else processed.find? fun m => nzDur m = some (maxDur processed)) ∧
    st.shortestMatch =
      (match (durList processed).foldl minStep none with
       | none => none
       | some v => processed.find? fun m => nzDur m = some v)

theorem durInv_init : DurInv [] initState :=
  ⟨rfl, rfl, rfl, rfl, rfl, rfl⟩

theorem durInv_mpfold {p : List MatchWithDetails} {st : CalcState}
    (m : MatchWithDetails) (l : List MatchPlayerWithDetails)
    (h : DurInv p st) : DurInv p (l.foldl (processMP m) st) := by
  obtain ⟨h1, h2, h3, h4, h5, h6⟩ := h
  obtain ⟨g1, g2, g3, g4, g5, g6⟩ := processMPFold_durFields m l st
  exact ⟨g1.trans h1, g2.trans h2, g3.trans h3, g4.trans h4,
    g5.trans h5, g6.trans h6⟩

/-- A match with no nonzero parsed duration leaves the duration block
untouched. -/
theorem processMatchDuration_of_nzDur_none {st : CalcState}
    {m : MatchWithDetails} (hnz : nzDur m = none) :
    processMatchDuration st m = st := by
  rw [processMatchDuration]
  rw [nzDur] at hnz
  cases htt : m.metadata.time_taken with
  | none => rfl
  | some s =>
    by_cases hs : s = ""
    · simp [hs]
    · rw [htt] at hnz
      have hnp : ¬(0 : ℚ) < parseTimeToMinutes s := by
        intro hpos
        rw [if_pos hpos] at hnz
        cases hnz
      simp [hs, hnp]

/-- Conversely, a nonzero parsed duration comes from a non-empty
duration text parsing to that (positive) value. -/
theorem nzDur_eq_some {m : MatchWithDetails} {q : ℚ}
    (hq : nzDur m = some q) :
    0 < q ∧ ∃ s, m.metadata.time_taken = some s ∧ ¬s = "" ∧
      parseTimeToMinutes s = q := by
  rw [nzDur] at hq
  cases htt : m.metadata.time_taken with
  | none =>
    rw [htt] at hq
    simp only [lt_irrefl, if_neg, not_false_iff] at hq
    cases hq
  | some s =>
    rw [htt] at hq
    by_cases hpos : (0 : ℚ) < parseTimeToMinutes s
    · rw [if_pos hpos] at hq
      have hqs : parseTimeToMinutes s = q := by injection hq
      refine ⟨hqs ▸ hpos, s, rfl, ?_, hqs⟩
      intro hs
      rw [hs] at hqs
      rw [parseTimeToMinutes, if_pos rfl] at hqs
      rw [hs, parseTimeToMinutes, if_pos rfl] at hpos
      exact absurd hpos (lt_irrefl 0)
    · rw [if_neg hpos] at hq
      cases hq

theorem foldl_max_append (dl : List ℚ) (q : ℚ) :
    (dl ++ [q]).foldl max 0 = max (dl.foldl max 0) q := by
  rw [List.foldl_append, List.foldl_cons, List.foldl_nil]

theorem foldl_minStep_append (dl : List ℚ) (q : ℚ) :
    (dl ++ [q]).foldl minStep none = minStep (dl.foldl minStep none) q := by
  rw [List.foldl_append, List.foldl_cons, List.foldl_nil]

/-- No match of `l` attains a duration value strictly above the maximum
(resp. strictly below the minimum, resp. any value when `l` has no
durations), so `find?` fails over `l`. -/
theorem find?_durval_eq_none {l : List MatchWithDetails} {v : ℚ}
    (hv : ∀ x ∈ durList l, ¬x = v) :
    (l.find? fun m => nzDur m = some v) = none := by
  rw [List.find?_eq_none]
  intro m' hm'
  simp only [decide_eq_true_eq]
  intro hsome
  exact hv _ (List.mem_filterMap.mpr ⟨m', hm', hsome⟩) rfl

/-- Projections of the three duration statements. -/
theorem durTotals_totalMinutes (st : CalcState) (q : ℚ) :
    (durTotals st q).totalMinutes = st.totalMinutes + q := rfl

theorem durTotals_matchesWithTime (st : CalcState) (q : ℚ) :
    (durTotals st q).matchesWithTime = st.matchesWithTime + 1 := rfl

theorem durTotals_longestMinutes (st : CalcState) (q : ℚ) :
    (durTotals st q).longestMinutes = st.longestMinutes := rfl

theorem durTotals_longestMatch (st : CalcState) (q : ℚ) :
    (durTotals st q).longestMatch = st.longestMatch := rfl

theorem durTotals_shortestMinutes (st : CalcState) (q : ℚ) :
    (durTotals st q).shortestMinutes = st.shortestMinutes := rfl

theorem durTotals_shortestMatch (st : CalcState) (q : ℚ) :
    (durTotals st q).shortestMatch = st.shortestMatch := rfl

theorem durLongest_totalMinutes (m : MatchWithDetails) (st : CalcState)
    (q : ℚ) : (durLongest m st q).totalMinutes = st.totalMinutes := by
  rw [durLongest]; split <;> rfl

theorem durLongest_matchesWithTime (m : MatchWithDetails) (st : CalcState)
    (q : ℚ) : (durLongest m st q).matchesWithTime = st.matchesWithTime := by
  rw [durLongest]; split <;> rfl

theorem durLongest_shortestMinutes (m : MatchWithDetails) (st : CalcState)
    (q : ℚ) : (durLongest m st q).shortestMinutes = st.shortestMinutes := by
  rw [durLongest]; split <;> rfl

theorem durLongest_shortestMatch (m : MatchWithDetails) (st : CalcState)
    (q : ℚ) : (durLongest m st q).shortestMatch = st.shortestMatch := by
  rw [durLongest]; split <;> rfl

theorem durLongest_longestMinutes (m : MatchWithDetails) (st : CalcState)
    (q : ℚ) :
    (durLongest m st q).longestMinutes =
      if q > st.longestMinutes then q else st.longestMinutes := by
  rw [durLongest]; split <;> rfl

theorem durLongest_longestMatch (m : MatchWithDetails) (st : CalcState)
    (q : ℚ) :
    (durLongest m st q).longestMatch =
      if q > st.longestMinutes then some m else st.longestMatch := by
  rw [durLongest]; split <;> rfl

theorem durShortest_totalMinutes (m : MatchWithDetails) (st : CalcState)
    (q : ℚ) : (durShortest m st q).totalMinutes = st.totalMinutes := by
  rw [durShortest]; split <;> rfl

theorem durShortest_matchesWithTime (m : MatchWithDetails) (st : CalcState)
    (q : ℚ) : (durShortest m st q).matchesWithTime = st.matchesWithTime := by
  rw [durShortest]; split <;> rfl

theorem durShortest_longestMinutes (m : MatchWithDetails) (st : CalcState)
    (q : ℚ) : (durShortest m st q).longestMinutes = st.longestMinutes := by
  rw [durShortest]; split <;> rfl

theorem durShortest_longestMatch (m : MatchWithDetails) (st : CalcState)
    (q : ℚ) : (durShortest m st q).longestMatch = st.longestMatch := by
  rw [durShortest]; split <;> rfl

theorem durShortest_shortestMinutes (m : MatchWithDetails) (st : CalcState)
    (q : ℚ) :
    (durShortest m st q).shortestMinutes =
      if (match st.shortestMinutes with
          | none => true
          | some v => decide (q < v)) = true then some q
      else st.shortestMinutes := by
  rw [durShortest]; split <;> rfl

theorem durShortest_shortestMatch (m : MatchWithDetails) (st : CalcState)
    (q : ℚ) :
    (durShortest m st q).shortestMatch =
      if (match st.shortestMinutes with
          | none => true
          | some v => decide (q < v)) = true then some m
      else st.shortestMatch := by
  rw [durShortest]; split <;> rfl

/-- The invariant survives one match of the aggregation fold. -/
theorem durInv_step {l : List MatchWithDetails} {st : CalcState}
    (h : DurInv l st) (m : MatchWithDetails) :
    DurInv (l ++ [m]) (processMatch st m) := by
  rw [processMatch]
  refine durInv_mpfold m _ ?_
  obtain ⟨h1, h2, h3, h4, h5, h6⟩ := h
  cases hnz : nzDur m with
  | none =>
    have hdl : durList (l ++ [m]) = durList l := by
      rw [durList_append_single, hnz, List.append_nil]
    have hfind : ∀ v : ℚ,
        ((l ++ [m]).find? fun m' => nzDur m' = some v) =
          (l.find? fun m' => nzDur m' = some v) := by
      intro v
      rw [List.find?_append]
      have h0 : ([m].find? fun m' => nzDur m' = some v) = none := by
        rw [List.find?_eq_none]
        intro m' hm'
        rcases List.mem_singleton.mp hm' with rfl
        simp [hnz]
      rw [h0, Option.or_none]
    rw [processMatchDuration_of_nzDur_none hnz]
    refine ⟨?_, ?_, ?_, ?_, ?_, ?_⟩
    · rw [h1, hdl]
    · rw [h2, hdl]
    · rw [h3, maxDur, maxDur, hdl]
    · rw [h4, hdl]
    · rw [h5, maxDur, maxDur, hdl, hfind]
    · rw [h6, hdl]
      cases (durList l).foldl minStep none with
      | none => rfl
      | some v => exact (hfind v).symm
  | some q =>
    obtain ⟨hqpos, s, htt, hs, hparse⟩ := nzDur_eq_some hnz
    have hdur : processMatchDuration st m =
        durShortest m (durLongest m (durTotals st q) q) q := by
      rw [processMatchDuration, htt]
      dsimp only
      rw [if_neg hs, hparse, if_pos hqpos]
    rw [hdur]
    have hdl : durList (l ++ [m]) = durList l ++ [q] := by
      rw [durList_append_single, hnz]
    have hmax : maxDur (l ++ [m]) = max (maxDur l) q := by
      rw [maxDur, maxDur, hdl, foldl_max_append]
    have hne : durList (l ++ [m]) ≠ [] := by
      rw [hdl]
      exact List.append_ne_nil_of_right_ne_nil _ (by simp)
    have hminfold : (durList (l ++ [m])).foldl minStep none =
        minStep ((durList l).foldl minStep none) q := by
      rw [hdl, foldl_minStep_append]
    refine ⟨?_, ?_, ?_, ?_, ?_, ?_⟩
    · rw [durShortest_totalMinutes, durLongest_totalMinutes,
        durTotals_totalMinutes, h1, hdl, List.sum_append, List.sum_singleton]
    · rw [durShortest_matchesWithTime, durLongest_matchesWithTime,
        durTotals_matchesWithTime, h2, hdl, List.length_append,
        List.length_singleton]
    · rw [durShortest_longestMinutes, durLongest_longestMinutes,
        durTotals_longestMinutes, hmax, h3]
      by_cases hlong : q > maxDur l
      · rw [if_pos hlong, max_eq_right (le_of_lt hlong)]
      · rw [if_neg hlong, max_eq_left (not_lt.mp hlong)]
    · rw [durShortest_shortestMinutes, durLongest_shortestMinutes,
        durTotals_shortestMinutes, hminfold, ← h4]
      cases hsm : st.shortestMinutes with
      | none => rfl
      | some v =>
        by_cases hqv : q < v
        · rw [if_pos (by simp [hqv])]
          simp only [minStep, min_eq_right (le_of_lt hqv)]
        · rw [if_neg (by simp [hqv])]
          simp only [minStep, min_eq_left (not_lt.mp hqv)]
    · rw [durShortest_longestMatch, durLongest_longestMatch,
        durTotals_longestMatch, durTotals_longestMinutes, if_neg hne, h3]
      by_cases hlong : q > maxDur l
      · rw [if_pos hlong]
        have hmaxq : maxDur (l ++ [m]) = q := by
          rw [hmax, max_eq_right (le_of_lt hlong)]
        rw [hmaxq]
        have hfindl : (l.find? fun m' => nzDur m' = some q) = none := by
          refine find?_durval_eq_none fun x hx hxv => ?_
          have hle := foldlMax_le 0 hx
          rw [← maxDur, hxv] at hle
          exact absurd hlong (not_lt_of_le hle)
        rw [List.find?_append, hfindl, Option.none_or,
          List.find?_cons_of_pos _ (by simp [hnz])]
      · rw [if_neg hlong]
        have hql : q ≤ maxDur l := not_lt.mp hlong
        have hmaxl : maxDur (l ++ [m]) = maxDur l := by
          rw [hmax, max_eq_left hql]
        rw [hmaxl]
        have hmaxpos : 0 < maxDur l := lt_of_lt_of_le hqpos hql
        have hdlne : durList l ≠ [] := by
          intro hc
          rw [maxDur, hc, List.foldl_nil] at hmaxpos
          exact absurd hmaxpos (lt_irrefl 0)
        have hattain : maxDur l ∈ durList l := by
          rcases foldlMax_attain 0 (durList l) with hc | hc
          · rw [maxDur, hc] at hmaxpos
            exact absurd hmaxpos (lt_irrefl 0)
          · exact hc
        rcases List.mem_filterMap.mp hattain with ⟨m', hm', hnzm'⟩
        have hsomel : ∃ lm,
            (l.find? fun m'' => nzDur m'' = some (maxDur l)) = some lm := by
          refine Option.isSome_iff_exists.mp ?_
          rw [List.find?_isSome]
          exact ⟨m', hm', by simp [hnzm']⟩
        rcases hsomel with ⟨lm, hlm⟩
        rw [List.find?_append, hlm, Option.or_some, h5, if_neg hdlne, hlm]
    · rw [durShortest_shortestMatch, durLongest_shortestMinutes,
        durLongest_shortestMatch, durTotals_shortestMinutes,
        durTotals_shortestMatch, hminfold, ← h4]
      cases hsm : st.shortestMinutes with
      | none =>
        rw [if_pos rfl]
        simp only [minStep]
        have hfoldn : (durList l).foldl minStep none = none :=
          h4.symm.trans hsm
        have hdle : durList l = [] := (minFold_eq_none hfoldn).2
        have hfindl : (l.find? fun m' => nzDur m' = some q) = none := by
          refine find?_durval_eq_none fun x hx _ => ?_
          rw [hdle] at hx
          cases hx
        rw [List.find?_append, hfindl, Option.none_or,
          List.find?_cons_of_pos _ (by simp [hnz])]
      | some v =>
        have hfold : (durList l).foldl minStep none = some v :=
          h4.symm.trans hsm
        by_cases hqv : q < v
        · rw [if_pos (by simp [hqv])]
          simp only [minStep, min_eq_right (le_of_lt hqv)]
          have hfindl : (l.find? fun m' => nzDur m' = some q) = none := by
            refine find?_durval_eq_none fun x hx hxv => ?_
            have hvx := minFold_le hfold x hx
            rw [hxv] at hvx
            exact absurd hqv (not_lt_of_le hvx)
          rw [List.find?_append, hfindl, Option.none_or,
            List.find?_cons_of_pos _ (by simp [hnz])]
        · rw [if_neg (by simp [hqv])]
          simp only [minStep, min_eq_left (not_lt.mp hqv)]
          have hvmem : v ∈ durList l := by
            rcases minFold_attain hfold with hc | hc
            · cases hc
            · exact hc
          rcases List.mem_filterMap.mp hvmem with ⟨m', hm', hnzm'⟩
          have hsomel : ∃ sm,
              (l.find? fun m'' => nzDur m'' = some v) = some sm := by
            refine Option.isSome_iff_exists.mp ?_
            rw [List.find?_isSome]
            exact ⟨m', hm', by simp [hnzm']⟩
          rcases hsomel with ⟨sm, hsm'⟩
          rw [List.find?_append, hsm', Option.or_some, h6, hfold]
          exact hsm'

theorem durInv_calc (ms : List MatchWithDetails) :
    DurInv ms (ms.foldl processMatch initState) := by
  induction ms using List.reverseRecOn with
  | nil => exact durInv_init
  | append_singleton l m ih =>
    rw [List.foldl_append, List.foldl_cons, List.foldl_nil]
    exact durInv_step ih m

end UseStats

/-- C7: `matchDurationStats.longest` and `.shortest` are the matches
attaining the maximum resp. minimum nonzero parsed duration, ties keeping
the first in input order (`find?` picks the first attaining match);
matches with missing or zero-parsing duration text are excluded from the
extremes, the total and the average (they contribute nothing to
`durList`); and `averageMinutes` is `totalMinutes` over the count of
nonzero-duration matches, `0` when there are none. -/
theorem c7_duration_stats (ms : List MatchWithDetails) :
    (UseStats.calculateStats ms).matchDurationStats.totalMinutes =
        (durList ms).sum ∧
      (UseStats.calculateStats ms).matchDurationStats.averageMinutes =
        (if durList ms = [] then 0
         else (durList ms).sum / (durList ms).length) ∧
      (UseStats.calculateStats ms).matchDurationStats.longest =
        (if durList ms = [] then none
         else ms.find? fun m => nzDur m = some (maxDur ms)) ∧
      (UseStats.calculateStats ms).matchDurationStats.shortest =
        (match minDur? ms with
         | none => none
         | some v => ms.find? fun m => nzDur m = some v) := by
  obtain ⟨h1, h2, h3, h4, h5, h6⟩ := UseStats.durInv_calc ms
  refine ⟨h1, ?_, h5, by rw [minDur?_eq_foldl]; exact h6⟩
  show (if (ms.foldl UseStats.processMatch UseStats.initState).matchesWithTime
        > 0 then _ else 0) = _
  rw [h2, h1]
  by_cases hdl : durList ms = []
  · rw [if_pos hdl, hdl]
    norm_num
  · rw [if_neg hdl, if_pos]
    exact Nat.pos_of_ne_zero fun hc => hdl (List.length_eq_zero.mp hc)

/-! ## C4: achievement unlock dates -/

/-- Membership in a guarded singleton branch. -/
theorem mem_guard {α : Type} {g : Prop} [Decidable g] {x a : α}
    (h : a ∈ (if g then [x] else [])) : g ∧ a = x := by
  by_cases hg : g
  · exact ⟨hg, by simpa [hg] using h⟩
  · simp [hg] at h

namespace UsePlayerProfile

theorem pStep_wins (acc : PAcc) (mp : MPEntry) :
    (pStep acc mp).wins =
      if mp.is_winner = some true then acc.wins + 1 else acc.wins := by
  rw [pStep]
  cases mp.«match».metadata.time_taken with
  | none => by_cases hw : mp.is_winner = some true <;> simp [hw]
  | some s =>
    by_cases hw : mp.is_winner = some true <;> simp only [hw] <;>
      simp <;> split_ifs <;> rfl

theorem pStep_blackoutWins (acc : PAcc) (mp : MPEntry) :
    (pStep acc mp).blackoutWins =
      if mp.is_winner = some true ∧ mp.«match».outcome = "blackout" then
        acc.blackoutWins + 1
      else acc.blackoutWins := by
  rw [pStep]
  cases mp.«match».metadata.time_taken with
  | none =>
    by_cases hw : mp.is_winner = some true <;>
      by_cases hb : mp.«match».outcome = "blackout" <;>
      simp [hw, hb]
  | some s =>
    by_cases hw : mp.is_winner = some true <;>
      by_cases hb : mp.«match».outcome = "blackout" <;>
      simp [hw, hb] <;> split_ifs <;> rfl

theorem pStep_tempStreak (acc : PAcc) (mp : MPEntry) :
    (pStep acc mp).tempStreak =
      if mp.is_winner = some true then acc.tempStreak + 1 else 0 := by
  rw [pStep]
  cases mp.«match».metadata.time_taken with
  | none => by_cases hw : mp.is_winner = some true <;> simp [hw]
  | some s =>
    by_cases hw : mp.is_winner = some true <;> simp [hw] <;>
      split_ifs <;> rfl

theorem pStep_longestStreak (acc : PAcc) (mp : MPEntry) :
    (pStep acc mp).longestStreak =
      if mp.is_winner = some true then
        max acc.longestStreak (acc.tempStreak + 1)
      else acc.longestStreak := by
  rw [pStep]
  cases mp.«match».metadata.time_taken with
  | none => by_cases hw : mp.is_winner = some true <;> simp [hw]
  | some s =>
    by_cases hw : mp.is_winner = some true <;> simp [hw] <;>
      split_ifs <;> rfl

theorem pFold_wins (l : List MPEntry) (acc : PAcc) :
    (l.foldl pStep acc).wins =
      acc.wins + l.countP (fun mp => mp.is_winner = some true) := by
  induction l generalizing acc with
  | nil => simp
  | cons mp l ih =>
    rw [List.foldl_cons, ih, List.countP_cons]
    by_cases hw : mp.is_winner = some true <;>
      simp [pStep_wins, hw] <;> omega

theorem pFold_blackoutWins (l : List MPEntry) (acc : PAcc) :
    (l.foldl pStep acc).blackoutWins =
      acc.blackoutWins + l.countP (fun mp =>
        decide (mp.is_winner = some true) &&
          decide (mp.«match».outcome = "blackout")) := by
  induction l generalizing acc with
  | nil => simp
  | cons mp l ih =>
    rw [List.foldl_cons, ih, List.countP_cons]
    by_cases hwb : mp.is_winner = some true ∧ mp.«match».outcome = "blackout" <;>
      simp [pStep_blackoutWins, hwb] <;> omega

/-- When the fold's final longest streak reaches `k`, either the longest
streak was already `k` at the start, or the forward scan of
`getStreakDate` (starting from the accumulator's running count) fires. -/
theorem pFold_streak_scan {k : Nat} (l : List MPEntry) (acc : PAcc)
    (hc : acc.tempStreak < k)
    (hk : (l.foldl pStep acc).longestStreak ≥ k) :
    acc.longestStreak ≥ k ∨
      (getStreakDate.go k l acc.tempStreak).isSome := by
  induction l generalizing acc with
  | nil => exact Or.inl hk
  | cons mp l ih =>
    rw [List.foldl_cons] at hk
    by_cases hw : mp.is_winner = some true
    · by_cases hkk : acc.tempStreak + 1 = k
      · refine Or.inr ?_
        rw [getStreakDate.go, if_pos hw, if_pos hkk]
        rfl
      · have hc' : (pStep acc mp).tempStreak < k := by
          rw [pStep_tempStreak, if_pos hw]
          omega
        rcases ih (pStep acc mp) hc' hk with hl | hr
        · rw [pStep_longestStreak, if_pos hw] at hl
          rcases max_cases acc.longestStreak (acc.tempStreak + 1) with
            ⟨he, -⟩ | ⟨he, -⟩
          · exact Or.inl (by omega)
          · rw [he] at hl
            omega
        · refine Or.inr ?_
          rw [getStreakDate.go, if_pos hw, if_neg hkk]
          rw [pStep_tempStreak, if_pos hw] at hr
          exact hr
    · have hc' : (pStep acc mp).tempStreak < k := by
        rw [pStep_tempStreak, if_neg hw]
        omega
      rcases ih (pStep acc mp) hc' hk with hl | hr
      · rw [pStep_longestStreak, if_neg hw] at hl
        exact Or.inl hl
      · refine Or.inr ?_
        rw [getStreakDate.go, if_neg hw]
        rw [pStep_tempStreak, if_neg hw] at hr
        exact hr

theorem getNthWinDate_isSome {n : Nat} (l : List MPEntry) (c : Nat)
    (hc : c < n)
    (hn : n ≤ c + l.countP (fun mp => mp.is_winner = some true)) :
    (getNthWinDate.go n l c).isSome := by
  induction l generalizing c with
  | nil => simp at hn; omega
  | cons mp l ih =>
    rw [List.countP_cons] at hn
    by_cases hw : mp.is_winner = some true
    · by_cases hkk : c + 1 = n
      · rw [getNthWinDate.go, if_pos hw, if_pos hkk]
        rfl
      · rw [getNthWinDate.go, if_pos hw, if_neg hkk]
        refine ih (c + 1) (by omega) ?_
        simp [hw] at hn
        omega
    · rw [getNthWinDate.go, if_neg hw]
      refine ih c hc ?_
      simp [hw] at hn
      omega

theorem getNthBlackoutDate_isSome {n : Nat} (l : List MPEntry) (c : Nat)
    (hc : c < n)
    (hn : n ≤ c + l.countP (fun mp =>
      decide (mp.is_winner = some true) &&
        decide (mp.«match».outcome = "blackout"))) :
    (getNthBlackoutDate.go n l c).isSome := by
  induction l generalizing c with
  | nil => simp at hn; omega
  | cons mp l ih =>
    rw [List.countP_cons] at hn
    by_cases hw : mp.is_winner = some true ∧ mp.«match».outcome = "blackout"
    · by_cases hkk : c + 1 = n
      · rw [getNthBlackoutDate.go, if_pos hw, if_pos hkk]
        rfl
      · rw [getNthBlackoutDate.go, if_pos hw, if_neg hkk]
        refine ih (c + 1) (by omega) ?_
        simp [hw] at hn
        omega
    · rw [getNthBlackoutDate.go, if_neg hw]
      refine ih c hc ?_
      simp [hw] at hn
      omega

theorem calculateStats_wins (ms : List MatchWithDetails)
    (mps : List MPEntry) :
    (calculateStats ms mps).wins =
      (mps.insertionSort dateLe).countP
        (fun mp => mp.is_winner = some true) := by
  show ((mps.insertionSort dateLe).foldl pStep ⟨0, 0, 0, 0, 0, 0, 0⟩).wins = _
  rw [pFold_wins]
  simp

theorem calculateStats_blackoutWins (ms : List MatchWithDetails)
    (mps : List MPEntry) :
    (calculateStats ms mps).blackoutWins =
      (mps.insertionSort dateLe).countP (fun mp =>
        decide (mp.is_winner = some true) &&
          decide (mp.«match».outcome = "blackout")) := by
  show ((mps.insertionSort dateLe).foldl pStep
    ⟨0, 0, 0, 0, 0, 0, 0⟩).blackoutWins = _
  rw [pFold_blackoutWins]
  simp

set_option maxHeartbeats 2000000 in
/-- Every achievement the evaluator emits carries a date, provided its
stats summary counts what the history counts (as the hook's own summary
does): each count guard guarantees its date scan succeeds. -/
theorem achievements_dates_general (mps : List MPEntry)
    (stats : ProfileStats)
    (hw : stats.wins = (mps.insertionSort dateLe).countP
      (fun mp => mp.is_winner = some true))
    (hbk : stats.blackoutWins = (mps.insertionSort dateLe).countP (fun mp =>
      decide (mp.is_winner = some true) &&
        decide (mp.«match».outcome = "blackout")))
    (hls : stats.longestStreak =
      ((mps.insertionSort dateLe).foldl pStep
        ⟨0, 0, 0, 0, 0, 0, 0⟩).longestStreak)
    (htm : stats.totalMatches = mps.length) :
    ∀ a ∈ calculateAchievements mps stats, a.unlockedAt.isSome := by
  intro a ha
  simp only [calculateAchievements, List.mem_filter] at ha
  obtain ⟨ha, -⟩ := ha
  have hlen : (mps.insertionSort dateLe).length = mps.length :=
    List.length_insertionSort dateLe mps
  -- the appends associate to the left: peel the branches from the right
  rcases List.mem_append.mp ha with ha | hb
  rotate_left
  · -- survivor
    rcases hfl : (mps.insertionSort dateLe).filter isLongMatch with
      _ | ⟨w, rest⟩ <;> rw [hfl] at hb
    · cases hb
    · rcases List.mem_singleton.mp hb with rfl
      rfl
  rcases List.mem_append.mp ha with ha | hb
  rotate_left
  · -- perfectionist
    obtain ⟨hg, rfl⟩ := mem_guard hb
    rw [hbk] at hg
    rw [getNthBlackoutDate]
    exact getNthBlackoutDate_isSome _ 0 (by omega) (by omega)
  rcases List.mem_append.mp ha with ha | hb
  rotate_left
  · -- blackout-king
    obtain ⟨hg, rfl⟩ := mem_guard hb
    rw [hbk] at hg
    have hpos : 0 < (mps.insertionSort dateLe).countP (fun mp =>
        decide (mp.is_winner = some true) &&
          decide (mp.«match».outcome = "blackout")) := by omega
    rcases List.countP_pos.mp hpos with ⟨x, hx, hp⟩
    simp only [Bool.and_eq_true, decide_eq_true_eq] at hp
    simp only [Option.isSome_map']
    rw [List.find?_isSome]
    refine ⟨x, hx, ?_⟩
    simp only [decide_eq_true_eq]
    exact hp
  rcases List.mem_append.mp ha with ha | hb
  rotate_left
  · -- addicted
    obtain ⟨hg, rfl⟩ := mem_guard hb
    rw [htm] at hg
    have hi : 49 < (mps.insertionSort dateLe).length := by rw [hlen]; omega
    simp only [Option.isSome_map']
    rw [List.getElem?_eq_getElem hi]
    rfl
  rcases List.mem_append.mp ha with ha | hb
  rotate_left
  · -- regular
    obtain ⟨hg, rfl⟩ := mem_guard hb
    rw [htm] at hg
    have hi : 24 < (mps.insertionSort dateLe).length := by rw [hlen]; omega
    simp only [Option.isSome_map']
    rw [List.getElem?_eq_getElem hi]
    rfl
  rcases List.mem_append.mp ha with ha | hb
  rotate_left
  · -- dedicated
    obtain ⟨hg, rfl⟩ := mem_guard hb
    rw [htm] at hg
    have hi : 9 < (mps.insertionSort dateLe).length := by rw [hlen]; omega
    simp only [Option.isSome_map']
    rw [List.getElem?_eq_getElem hi]
    rfl
  rcases List.mem_append.mp ha with ha | hb
  rotate_left
  · -- lightning
    rcases hfl : (mps.insertionSort dateLe).filter (isTimedWinUnder 45) with
      _ | ⟨w, rest⟩ <;> rw [hfl] at hb
    · cases hb
    · rcases List.mem_singleton.mp hb with rfl
      rfl
  rcases List.mem_append.mp ha with ha | hb
  rotate_left
  · -- speed-demon
    rcases hfl : (mps.insertionSort dateLe).filter (isTimedWinUnder 60) with
      _ | ⟨w, rest⟩ <;> rw [hfl] at hb
    · cases hb
    · rcases List.mem_singleton.mp hb with rfl
      rfl
  rcases List.mem_append.mp ha with ha | hb
  rotate_left
  · -- elden-lord
    obtain ⟨hg, rfl⟩ := mem_guard hb
    rw [hls] at hg
    rw [getStreakDate]
    rcases pFold_streak_scan (mps.insertionSort dateLe)
      ⟨0, 0, 0, 0, 0, 0, 0⟩ (by decide) hg with hl | hr
    · simp at hl
    · exact hr
  rcases List.mem_append.mp ha with ha | hb
  rotate_left
  · -- unstoppable
    obtain ⟨hg, rfl⟩ := mem_guard hb
    rw [hls] at hg
    rw [getStreakDate]
    rcases pFold_streak_scan (mps.insertionSort dateLe)
      ⟨0, 0, 0, 0, 0, 0, 0⟩ (by decide) hg with hl | hr
    · simp at hl
    · exact hr
  rcases List.mem_append.mp ha with ha | hb
  rotate_left
  · -- hot-streak
    obtain ⟨hg, rfl⟩ := mem_guard hb
    rw [hls] at hg
    rw [getStreakDate]
    rcases pFold_streak_scan (mps.insertionSort dateLe)
      ⟨0, 0, 0, 0, 0, 0, 0⟩ (by decide) hg with hl | hr
    · simp at hl
    · exact hr
  rcases List.mem_append.mp ha with ha | hb
  rotate_left
  · -- legend
    obtain ⟨hg, rfl⟩ := mem_guard hb
    rw [hw] at hg
    rw [getNthWinDate]
    exact getNthWinDate_isSome _ 0 (by omega) (by omega)
  rcases List.mem_append.mp ha with ha | hb
  rotate_left
  · -- champion
    obtain ⟨hg, rfl⟩ := mem_guard hb
    rw [hw] at hg
    rw [getNthWinDate]
    exact getNthWinDate_isSome _ 0 (by omega) (by omega)
  rcases List.mem_append.mp ha with ha | hb
  rotate_left
  · -- veteran
    obtain ⟨hg, rfl⟩ := mem_guard hb
    rw [hw] at hg
    rw [getNthWinDate]
    exact getNthWinDate_isSome _ 0 (by omega) (by omega)
  -- first-blood
  obtain ⟨hg, rfl⟩ := mem_guard ha
  rw [hw] at hg
  have hpos : 0 < (mps.insertionSort dateLe).countP
      (fun mp => mp.is_winner = some true) := by omega
  rcases List.countP_pos.mp hpos with ⟨x, hx, hp⟩
  simp only [Option.isSome_map']
  rw [List.find?_isSome]
  exact ⟨x, hx, hp⟩

theorem achievements_dates_isSome (mps : List MPEntry) :
    ∀ a ∈ calculateAchievements mps
        (calculateStats (mps.map (·.«match»)) mps),
      a.unlockedAt.isSome :=
  achievements_dates_general mps _
    (calculateStats_wins (mps.map (·.«match»)) mps)
    (calculateStats_blackoutWins (mps.map (·.«match»)) mps)
    rfl
    (by show (mps.map (·.«match»)).length = mps.length; rw [List.length_map])

end UsePlayerProfile

/-- C4 counterexample: the claim promises every returned achievement a
non-empty `unlockedAt`.  Feeding an empty history with a stats summary
claiming one win (the function signature permits any summary, and the
final filter only tests the `achievement` field), the evaluator returns
the first-blood badge with a blank (`none`) unlock date. -/
theorem c4_blank_date_counterexample :
    (UsePlayerProfile.calculateAchievements []
        ⟨0, 1, 0, 0, 0, 0, 0, 0, 0, 0⟩).map (·.unlockedAt) = [none] := by
  decide

set_option maxHeartbeats 2000000 in
/-- C4 (amended): the final filter only removes entries whose catalog
lookup failed; an inconsistent stats summary can produce blank dates.
But under the hook's actual call pattern — the stats summary computed
from the same history — every returned achievement carries a date. -/
theorem c4_dates_present_for_consistent_stats
    (mps : List UsePlayerProfile.MPEntry)
    (a : UsePlayerProfile.PlayerAchievement)
    (h : a ∈ UsePlayerProfile.calculateAchievements mps
      (UsePlayerProfile.calculateStats (mps.map (·.«match»)) mps)) :
    a.unlockedAt.isSome :=
  UsePlayerProfile.achievements_dates_isSome mps a h

set_option maxHeartbeats 2000000 in
/-- C4 witness: the six-match fixture unlocks the first-blood badge, a
member of the evaluator's output, and the amended theorem gives its
date. -/
theorem c4_witness :
    ∃ a, a ∈ UsePlayerProfile.calculateAchievements streakEntries
        (UsePlayerProfile.calculateStats
          (streakEntries.map (·.«match»)) streakEntries) ∧
      a.unlockedAt.isSome :=
  ⟨_, List.get_mem _ 0 (by decide),
    c4_dates_present_for_consistent_stats streakEntries _
      (List.get_mem _ 0 (by decide))⟩

/-! ## C5: monotonicity of achievement unlocking -/

/-- Inserting an element that the relation places after `a` at the end of
the list commutes with `orderedInsert`. -/
theorem orderedInsert_append_last {α : Type} (r : α → α → Prop)
    [DecidableRel r] (a e : α) (s : List α) (hae : r a e) :
    List.orderedInsert r a (s ++ [e]) = List.orderedInsert r a s ++ [e] := by
  induction s with
  | nil => simp [List.orderedInsert, if_pos hae]
  | cons b t ih =>
    simp only [List.cons_append, List.orderedInsert]
    by_cases hab : r a b
    · simp [if_pos hab]
    · simp [if_neg hab, ih]

/-- Sorting a list with one element appended that the relation places
after every original element just appends it to the sorted list. -/
theorem insertionSort_append_last {α : Type} (r : α → α → Prop)
    [DecidableRel r] (l : List α) (e : α) (h : ∀ x ∈ l, r x e) :
    List.insertionSort r (l ++ [e]) = List.insertionSort r l ++ [e] := by
  induction l with
  | nil => simp [List.insertionSort]
  | cons a t ih =>
    simp only [List.cons_append, List.insertionSort, List.append_eq]
    rw [ih (fun x hx => h x (List.mem_cons_of_mem a hx)),
      orderedInsert_append_last r a e _ (h a (List.mem_cons_self a t))]

namespace UsePlayerProfile

/-- Appending one more entry to the scanned history never decreases the
longest streak found by the fold. -/
theorem pFold_longest_append_le (s : List MPEntry) (e : MPEntry)
    (init : PAcc) :
    (s.foldl pStep init).longestStreak ≤
      ((s ++ [e]).foldl pStep init).longestStreak := by
  rw [List.foldl_append]
  simp only [List.foldl_cons, List.foldl_nil]
  rw [pStep_longestStreak]
  split_ifs with h
  · exact le_max_left _ _
  · exact le_rfl

set_option maxHeartbeats 2000000 in
/-- If the stats summaries count what the two histories count, then every
achievement unlocked on `mps` persists, with the same catalog entry,
when the later-dated entry `e` is appended. -/
theorem achievements_monotone_general (mps : List MPEntry) (e : MPEntry)
    (he : ∀ x ∈ mps, dateLe x e)
    (s1 s2 : ProfileStats)
    (h1w : s1.wins = (mps.insertionSort dateLe).countP
      (fun mp => mp.is_winner = some true))
    (h2w : s2.wins = ((mps ++ [e]).insertionSort dateLe).countP
      (fun mp => mp.is_winner = some true))
    (h1b : s1.blackoutWins = (mps.insertionSort dateLe).countP (fun mp =>
      decide (mp.is_winner = some true) &&
        decide (mp.«match».outcome = "blackout")))
    (h2b : s2.blackoutWins =
      ((mps ++ [e]).insertionSort dateLe).countP (fun mp =>
        decide (mp.is_winner = some true) &&
          decide (mp.«match».outcome = "blackout")))
    (h1l : s1.longestStreak =
      ((mps.insertionSort dateLe).foldl pStep
        ⟨0, 0, 0, 0, 0, 0, 0⟩).longestStreak)
    (h2l : s2.longestStreak =
      (((mps ++ [e]).insertionSort dateLe).foldl pStep
        ⟨0, 0, 0, 0, 0, 0, 0⟩).longestStreak)
    (h1t : s1.totalMatches = mps.length)
    (h2t : s2.totalMatches = mps.length + 1) :
    ∀ a ∈ calculateAchievements mps s1,
      ∃ b ∈ calculateAchievements (mps ++ [e]) s2,
        b.achievement = a.achievement := by
  intro a ha
  have hsort : (mps ++ [e]).insertionSort dateLe =
      mps.insertionSort dateLe ++ [e] :=
    insertionSort_append_last dateLe mps e he
  rw [hsort] at h2w h2b h2l
  have hwm : s1.wins ≤ s2.wins := by
    rw [h1w, h2w, List.countP_append]; omega
  have hbm : s1.blackoutWins ≤ s2.blackoutWins := by
    rw [h1b, h2b, List.countP_append]; omega
  have hlm : s1.longestStreak ≤ s2.longestStreak := by
    rw [h1l, h2l]; exact pFold_longest_append_le _ e _
  simp only [calculateAchievements, List.mem_filter] at ha ⊢
  simp only [hsort]
  obtain ⟨ha, hsome⟩ := ha
  rcases List.mem_append.mp ha with ha | hb
  rotate_left
  · -- survivor
    rcases hfl : (mps.insertionSort dateLe).filter isLongMatch with
      _ | ⟨w, rest⟩ <;> rw [hfl] at hb
    · cases hb
    · rcases List.mem_singleton.mp hb with rfl
      refine ⟨⟨ACHIEVEMENTS.find? (·.id = "survivor"),
        some w.«match».played_at⟩, ⟨?_, hsome⟩, rfl⟩
      apply List.mem_append_right
      rw [List.filter_append, hfl, List.cons_append]
      exact List.mem_singleton.mpr rfl
  rcases List.mem_append.mp ha with ha | hb
  rotate_left
  · -- perfectionist
    obtain ⟨hg, rfl⟩ := mem_guard hb
    refine ⟨⟨ACHIEVEMENTS.find? (·.id = "perfectionist"),
      getNthBlackoutDate (mps.insertionSort dateLe ++ [e]) 5⟩,
      ⟨?_, hsome⟩, rfl⟩
    apply List.mem_append_left
    apply List.mem_append_right
    rw [if_pos (show s2.blackoutWins ≥ 5 by omega)]
    exact List.mem_singleton.mpr rfl
  rcases List.mem_append.mp ha with ha | hb
  rotate_left
  · -- blackout-king
    obtain ⟨hg, rfl⟩ := mem_guard hb
    refine ⟨⟨ACHIEVEMENTS.find? (·.id = "blackout-king"),
      ((mps.insertionSort dateLe ++ [e]).find? fun mp =>
        mp.is_winner = some true ∧ mp.«match».outcome = "blackout").map
          (·.«match».played_at)⟩, ⟨?_, hsome⟩, rfl⟩
    iterate 2 apply List.mem_append_left
    apply List.mem_append_right
    rw [if_pos (show s2.blackoutWins ≥ 1 by omega)]
    exact List.mem_singleton.mpr rfl
  rcases List.mem_append.mp ha with ha | hb
  rotate_left
  · -- addicted
    obtain ⟨hg, rfl⟩ := mem_guard hb
    refine ⟨⟨ACHIEVEMENTS.find? (·.id = "addicted"),
      (mps.insertionSort dateLe ++ [e])[49]?.map (·.«match».played_at)⟩,
      ⟨?_, hsome⟩, rfl⟩
    iterate 3 apply List.mem_append_left
    apply List.mem_append_right
    rw [if_pos (show s2.totalMatches ≥ 50 by omega)]
    exact List.mem_singleton.mpr rfl
  rcases List.mem_append.mp ha with ha | hb
  rotate_left
  · -- regular
    obtain ⟨hg, rfl⟩ := mem_guard hb
    refine ⟨⟨ACHIEVEMENTS.find? (·.id = "regular"),
      (mps.insertionSort dateLe ++ [e])[24]?.map (·.«match».played_at)⟩,
      ⟨?_, hsome⟩, rfl⟩
    iterate 4 apply List.mem_append_left
    apply List.mem_append_right
    rw [if_pos (show s2.totalMatches ≥ 25 by omega)]
    exact List.mem_singleton.mpr rfl
  rcases List.mem_append.mp ha with ha | hb
  rotate_left
  · -- dedicated
    obtain ⟨hg, rfl⟩ := mem_guard hb
    refine ⟨⟨ACHIEVEMENTS.find? (·.id = "dedicated"),
      (mps.insertionSort dateLe ++ [e])[9]?.map (·.«match».played_at)⟩,
      ⟨?_, hsome⟩, rfl⟩
    iterate 5 apply List.mem_append_left
    apply List.mem_append_right
    rw [if_pos (show s2.totalMatches ≥ 10 by omega)]
    exact List.mem_singleton.mpr rfl
  rcases List.mem_append.mp ha with ha | hb
  rotate_left
  · -- lightning
    rcases hfl : (mps.insertionSort dateLe).filter (isTimedWinUnder 45) with
      _ | ⟨w, rest⟩ <;> rw [hfl] at hb
    · cases hb
    · rcases List.mem_singleton.mp hb with rfl
      refine ⟨⟨ACHIEVEMENTS.find? (·.id = "lightning"),
        some w.«match».played_at⟩, ⟨?_, hsome⟩, rfl⟩
      iterate 6 apply List.mem_append_left
      apply List.mem_append_right
      rw [List.filter_append, hfl, List.cons_append]
      exact List.mem_singleton.mpr rfl
  rcases List.mem_append.mp ha with ha | hb
  rotate_left
  · -- speed-demon
    rcases hfl : (mps.insertionSort dateLe).filter (isTimedWinUnder 60) with
      _ | ⟨w, rest⟩ <;> rw [hfl] at hb
    · cases hb
    · rcases List.mem_singleton.mp hb with rfl
      refine ⟨⟨ACHIEVEMENTS.find? (·.id = "speed-demon"),
        some w.«match».played_at⟩, ⟨?_, hsome⟩, rfl⟩
      iterate 7 apply List.mem_append_left
      apply List.mem_append_right
      rw [List.filter_append, hfl, List.cons_append]
      exact List.mem_singleton.mpr rfl
  rcases List.mem_append.mp ha with ha | hb
  rotate_left
  · -- elden-lord
    obtain ⟨hg, rfl⟩ := mem_guard hb
    refine ⟨⟨ACHIEVEMENTS.find? (·.id = "elden-lord"),
      getStreakDate (mps.insertionSort dateLe ++ [e]) 10⟩,
      ⟨?_, hsome⟩, rfl⟩
    iterate 8 apply List.mem_append_left
    apply List.mem_append_right
    rw [if_pos (show s2.longestStreak ≥ 10 by omega)]
    exact List.mem_singleton.mpr rfl
  rcases List.mem_append.mp ha with ha | hb
  rotate_left
  · -- unstoppable
    obtain ⟨hg, rfl⟩ := mem_guard hb
    refine ⟨⟨ACHIEVEMENTS.find? (·.id = "unstoppable"),
      getStreakDate (mps.insertionSort dateLe ++ [e]) 5⟩,
      ⟨?_, hsome⟩, rfl⟩
    iterate 9 apply List.mem_append_left
    apply List.mem_append_right
    rw [if_pos (show s2.longestStreak ≥ 5 by omega)]
    exact List.mem_singleton.mpr rfl
  rcases List.mem_append.mp ha with ha | hb
  rotate_left
  · -- hot-streak
    obtain ⟨hg, rfl⟩ := mem_guard hb
    refine ⟨⟨ACHIEVEMENTS.find? (·.id = "hot-streak"),
      getStreakDate (mps.insertionSort dateLe ++ [e]) 3⟩,
      ⟨?_, hsome⟩, rfl⟩
    iterate 10 apply List.mem_append_left
    apply List.mem_append_right
    rw [if_pos (show s2.longestStreak ≥ 3 by omega)]
    exact List.mem_singleton.mpr rfl
  rcases List.mem_append.mp ha with ha | hb
  rotate_left
  · -- legend
    obtain ⟨hg, rfl⟩ := mem_guard hb
    refine ⟨⟨ACHIEVEMENTS.find? (·.id = "legend"),
      getNthWinDate (mps.insertionSort dateLe ++ [e]) 50⟩,
      ⟨?_, hsome⟩, rfl⟩
    iterate 11 apply List.mem_append_left
    apply List.mem_append_right
    rw [if_pos (show s2.wins ≥ 50 by omega)]
    exact List.mem_singleton.mpr rfl
  rcases List.mem_append.mp ha with ha | hb
  rotate_left
  · -- champion
    obtain ⟨hg, rfl⟩ := mem_guard hb
    refine ⟨⟨ACHIEVEMENTS.find? (·.id = "champion"),
      getNthWinDate (mps.insertionSort dateLe ++ [e]) 25⟩,
      ⟨?_, hsome⟩, rfl⟩
    iterate 12 apply List.mem_append_left
    apply List.mem_append_right
    rw [if_pos (show s2.wins ≥ 25 by omega)]
    exact List.mem_singleton.mpr rfl
  rcases List.mem_append.mp ha with ha | hb
  rotate_left
  · -- veteran
    obtain ⟨hg, rfl⟩ := mem_guard hb
    refine ⟨⟨ACHIEVEMENTS.find? (·.id = "veteran"),
      getNthWinDate (mps.insertionSort dateLe ++ [e]) 10⟩,
      ⟨?_, hsome⟩, rfl⟩
    iterate 13 apply List.mem_append_left
    apply List.mem_append_right
    rw [if_pos (show s2.wins ≥ 10 by omega)]
    exact List.mem_singleton.mpr rfl
  -- first-blood
  obtain ⟨hg, rfl⟩ := mem_guard ha
  refine ⟨⟨ACHIEVEMENTS.find? (·.id = "first-blood"),
    ((mps.insertionSort dateLe ++ [e]).find? fun mp =>
      mp.is_winner = some true).map (·.«match».played_at)⟩,
    ⟨?_, hsome⟩, rfl⟩
  iterate 14 apply List.mem_append_left
  rw [if_pos (show s2.wins ≥ 1 by omega)]
  exact List.mem_singleton.mpr rfl

end UsePlayerProfile

/-- C5 counterexample: the claim promises monotonicity for every
additional entry.  Three straight wins unlock the hot-streak badge, but
appending one loss whose `played_at` falls between the wins (a
backfilled upload) re-sorts the history to win, win, loss, win: the
longest streak drops to 2 and the badge is revoked. -/
theorem c5_revocation_counterexample :
    some "hot-streak" ∈
      (UsePlayerProfile.calculateAchievements winRunEntries
          (UsePlayerProfile.calculateStats
            (winRunEntries.map (·.«match»)) winRunEntries)).map
        (fun a => a.achievement.map (·.id)) ∧
      ¬ some "hot-streak" ∈
        (UsePlayerProfile.calculateAchievements (winRunEntries ++ [backfillLoss])
            (UsePlayerProfile.calculateStats
              ((winRunEntries ++ [backfillLoss]).map (·.«match»))
              (winRunEntries ++ [backfillLoss]))).map
          (fun a => a.achievement.map (·.id)) := by
  decide

set_option maxHeartbeats 1000000 in
/-- C5 (amended): achievement unlocking is monotonic when the added
participation entry is at least as recent as every existing one; every
achievement present for the history `mps` (with its own computed stats)
is still present, with the same catalog entry, for `mps ++ [e]` (with
its recomputed stats).  An entry sorting into the middle of the history
can instead revoke a streak badge. -/
theorem c5_achievements_monotone (mps : List UsePlayerProfile.MPEntry)
    (e : UsePlayerProfile.MPEntry)
    (he : ∀ x ∈ mps, UsePlayerProfile.dateLe x e) :
    ∀ a ∈ UsePlayerProfile.calculateAchievements mps
      (UsePlayerProfile.calculateStats (mps.map (·.«match»)) mps),
      ∃ b ∈ UsePlayerProfile.calculateAchievements (mps ++ [e])
        (UsePlayerProfile.calculateStats
          ((mps ++ [e]).map (·.«match»)) (mps ++ [e])),
        b.achievement = a.achievement :=
  UsePlayerProfile.achievements_monotone_general mps e he _ _
    (UsePlayerProfile.calculateStats_wins _ _)
    (UsePlayerProfile.calculateStats_wins _ _)
    (UsePlayerProfile.calculateStats_blackoutWins _ _)
    (UsePlayerProfile.calculateStats_blackoutWins _ _)
    rfl rfl
    (by show (mps.map (·.«match»)).length = mps.length
        rw [List.length_map])
    (by show ((mps ++ [e]).map (·.«match»)).length = mps.length + 1
        rw [List.length_map, List.length_append]
        rfl)

set_option maxHeartbeats 1000000 in
/-- C5 witness: the six-match fixture with a later loss appended keeps
its first unlocked achievement. -/
theorem c5_witness :
    ∃ a, a ∈ UsePlayerProfile.calculateAchievements streakEntries
        (UsePlayerProfile.calculateStats
          (streakEntries.map (·.«match»)) streakEntries) ∧
      ∃ b ∈ UsePlayerProfile.calculateAchievements (streakEntries ++ [lateLoss])
        (UsePlayerProfile.calculateStats
          ((streakEntries ++ [lateLoss]).map (·.«match»))
          (streakEntries ++ [lateLoss])),
        b.achievement = a.achievement :=
  ⟨_, List.get_mem _ 0 (by decide),
    c5_achievements_monotone streakEntries lateLoss (by decide) _
      (List.get_mem _ 0 (by decide))⟩

/-! ## C6: the duration round-trip

Symbolic lemmas about the decimal rendering, the regex scanner, and the
floor/round arithmetic, assembling into the round-trip theorem for every
integer minute count `m ≥ 1` (and the `m = 0` counterexample). -/

theorem digitsVal_append_single (l : List Char) (c : Char) :
    digitsVal (l ++ [c]) = digitsVal l * 10 + digitVal c := by
  simp only [digitsVal, List.foldl_append, List.foldl_cons, List.foldl_nil]

theorem natToCharsAux_spec : ∀ fuel n, n < fuel →
    natToCharsAux fuel n ≠ [] ∧
      (∀ c ∈ natToCharsAux fuel n, isDigitChar c = true) ∧
      digitsVal (natToCharsAux fuel n) = n := by
  intro fuel
  induction fuel with
  | zero => intro n h; exact absurd h (Nat.not_lt_zero n)
  | succ fuel ih =>
    intro n h
    by_cases h10 : n < 10
    · rw [natToCharsAux, if_pos h10]
      refine ⟨by simp, ?_, ?_⟩
      · intro c hc
        rcases List.mem_singleton.mp hc with rfl
        interval_cases n <;> decide
      · interval_cases n <;> decide
    · rw [natToCharsAux, if_neg h10]
      have hlt : n / 10 < fuel := by omega
      obtain ⟨h1, h2, h3⟩ := ih (n / 10) hlt
      have hr : n % 10 < 10 := by omega
      have hdd : isDigitChar (digitChar (n % 10)) = true ∧
          digitVal (digitChar (n % 10)) = n % 10 := by
        revert hr
        generalize n % 10 = r
        intro hr
        interval_cases r <;> exact ⟨by decide, by decide⟩
      refine ⟨by simp, ?_, ?_⟩
      · intro c hc
        rcases List.mem_append.mp hc with hc | hc
        · exact h2 c hc
        · rcases List.mem_singleton.mp hc with rfl
          exact hdd.1
      · rw [digitsVal_append_single, h3, hdd.2]
        omega

theorem natToChars_spec (n : Nat) :
    natToChars n ≠ [] ∧ (∀ c ∈ natToChars n, isDigitChar c = true) ∧
      digitsVal (natToChars n) = n :=
  natToCharsAux_spec (n + 1) n (Nat.lt_succ_self n)

theorem splitDigits_append (ds rest : List Char)
    (h1 : ∀ c ∈ ds, isDigitChar c = true)
    (h2 : ∀ c, rest.head? = some c → isDigitChar c = false) :
    splitDigits (ds ++ rest) = (ds, rest) := by
  induction ds with
  | nil =>
    cases rest with
    | nil => rfl
    | cons c t => simp [splitDigits, h2 c rfl]
  | cons d ds ih =>
    have hd := h1 d (List.mem_cons_self d ds)
    simp [splitDigits, hd, ih (fun c hc => h1 c (List.mem_cons_of_mem d hc))]

theorem matchAt_none_of_head_not_digit (u : Char) (l : List Char)
    (h : ∀ c, l.head? = some c → isDigitChar c = false) :
    matchAt u l = none := by
  cases l with
  | nil => rfl
  | cons c t =>
    have hsp : splitDigits (c :: t) = ([], c :: t) := by
      simp [splitDigits, h c rfl]
    rw [matchAt, hsp]

theorem matchAt_digits (u : Char) (ds : List Char) (c : Char) (t : List Char)
    (hne : ds ≠ []) (hds : ∀ x ∈ ds, isDigitChar x = true)
    (hcd : isDigitChar c = false) (hcw : isWsChar c = false)
    (hcu : lowerChar c = u) :
    matchAt u (ds ++ c :: t) = some (digitsVal ds) := by
  have h2 : ∀ x, (c :: t).head? = some x → isDigitChar x = false := by
    intro x hx
    simp only [List.head?_cons, Option.some.injEq] at hx
    subst hx
    exact hcd
  cases ds with
  | nil => exact absurd rfl hne
  | cons d dt =>
    rw [matchAt, splitDigits_append (d :: dt) (c :: t) hds h2]
    simp [skipWs, hcw, hcu]

theorem findUnit_cons_none (u c : Char) (cs : List Char)
    (h : matchAt u (c :: cs) = none) :
    findUnit u (c :: cs) = findUnit u cs := by
  rw [findUnit, h]

theorem findUnit_cons_some (u c : Char) (cs : List Char) (v : Nat)
    (h : matchAt u (c :: cs) = some v) :
    findUnit u (c :: cs) = some v := by
  rw [findUnit, h]

theorem findUnit_digit_run (u : Char) (ds tail : List Char)
    (hds : ∀ x ∈ ds, isDigitChar x = true)
    (htail : ∀ c, tail.head? = some c →
      isDigitChar c = false ∧ isWsChar c = false ∧ lowerChar c ≠ u) :
    findUnit u (ds ++ tail) = findUnit u tail := by
  induction ds with
  | nil => rw [List.nil_append]
  | cons d ds ih =>
    have hmA : matchAt u ((d :: ds) ++ tail) = none := by
      rw [matchAt, splitDigits_append (d :: ds) tail hds
        (fun c hc => (htail c hc).1)]
      cases tail with
      | nil => rfl
      | cons c t =>
        obtain ⟨-, hcw, hcu⟩ := htail c rfl
        simp [skipWs, hcw, hcu]
    rw [List.cons_append, findUnit_cons_none u d (ds ++ tail) hmA]
    exact ih (fun x hx => hds x (List.mem_cons_of_mem d hx))

theorem findUnit_head_digits (u : Char) (ds : List Char) (c : Char)
    (t : List Char) (hne : ds ≠ [])
    (hds : ∀ x ∈ ds, isDigitChar x = true)
    (hcd : isDigitChar c = false) (hcw : isWsChar c = false)
    (hcu : lowerChar c = u) :
    findUnit u (ds ++ c :: t) = some (digitsVal ds) := by
  have hmA := matchAt_digits u ds c t hne hds hcd hcw hcu
  cases ds with
  | nil => exact absurd rfl hne
  | cons d dt =>
    rw [List.cons_append] at hmA ⊢
    exact findUnit_cons_some u d (dt ++ c :: t) _ hmA

theorem head_one {c : Char} {t : List Char} (P : Char → Prop) (hP : P c) :
    ∀ x, (c :: t).head? = some x → P x := by
  intro x hx
  simp only [List.head?_cons, Option.some.injEq] at hx
  subst hx
  exact hP

theorem findUnit_h_hm (a b : Nat) :
    findUnit 'h' (natToChars a ++ 'h' :: ' ' :: (natToChars b ++ ['m'])) =
      some a := by
  obtain ⟨hne, hdig, hval⟩ := natToChars_spec a
  rw [findUnit_head_digits 'h' (natToChars a) 'h'
    (' ' :: (natToChars b ++ ['m'])) hne hdig (by decide) (by decide)
    (by decide), hval]

theorem findUnit_m_hm (a b : Nat) :
    findUnit 'm' (natToChars a ++ 'h' :: ' ' :: (natToChars b ++ ['m'])) =
      some b := by
  obtain ⟨-, hdigA, -⟩ := natToChars_spec a
  obtain ⟨hneB, hdigB, hvalB⟩ := natToChars_spec b
  rw [findUnit_digit_run 'm' (natToChars a)
    ('h' :: ' ' :: (natToChars b ++ ['m'])) hdigA
    (head_one _ ⟨by decide, by decide, by decide⟩)]
  rw [findUnit_cons_none 'm' 'h' (' ' :: (natToChars b ++ ['m']))
    (matchAt_none_of_head_not_digit 'm' _ (head_one _ (by decide)))]
  rw [findUnit_cons_none 'm' ' ' (natToChars b ++ ['m'])
    (matchAt_none_of_head_not_digit 'm' _ (head_one _ (by decide)))]
  rw [findUnit_head_digits 'm' (natToChars b) 'm' [] hneB hdigB (by decide)
    (by decide) (by decide), hvalB]

theorem findUnit_s_hm (a b : Nat) :
    findUnit 's' (natToChars a ++ 'h' :: ' ' :: (natToChars b ++ ['m'])) =
      none := by
  obtain ⟨-, hdigA, -⟩ := natToChars_spec a
  obtain ⟨-, hdigB, -⟩ := natToChars_spec b
  rw [findUnit_digit_run 's' (natToChars a)
    ('h' :: ' ' :: (natToChars b ++ ['m'])) hdigA
    (head_one _ ⟨by decide, by decide, by decide⟩)]
  rw [findUnit_cons_none 's' 'h' (' ' :: (natToChars b ++ ['m']))
    (matchAt_none_of_head_not_digit 's' _ (head_one _ (by decide)))]
  rw [findUnit_cons_none 's' ' ' (natToChars b ++ ['m'])
    (matchAt_none_of_head_not_digit 's' _ (head_one _ (by decide)))]
  rw [findUnit_digit_run 's' (natToChars b) ['m'] hdigB
    (head_one _ ⟨by decide, by decide, by decide⟩)]
  rw [findUnit_cons_none 's' 'm' []
    (matchAt_none_of_head_not_digit 's' _ (head_one _ (by decide)))]
  rfl

theorem findUnit_h_hOnly (a : Nat) :
    findUnit 'h' (natToChars a ++ ['h']) = some a := by
  obtain ⟨hne, hdig, hval⟩ := natToChars_spec a
  rw [findUnit_head_digits 'h' (natToChars a) 'h' [] hne hdig (by decide)
    (by decide) (by decide), hval]

theorem findUnit_m_hOnly (a : Nat) :
    findUnit 'm' (natToChars a ++ ['h']) = none := by
  obtain ⟨-, hdig, -⟩ := natToChars_spec a
  rw [findUnit_digit_run 'm' (natToChars a) ['h'] hdig
    (head_one _ ⟨by decide, by decide, by decide⟩)]
  rw [findUnit_cons_none 'm' 'h' []
    (matchAt_none_of_head_not_digit 'm' _ (head_one _ (by decide)))]
  rfl

theorem findUnit_s_hOnly (a : Nat) :
    findUnit 's' (natToChars a ++ ['h']) = none := by
  obtain ⟨-, hdig, -⟩ := natToChars_spec a
  rw [findUnit_digit_run 's' (natToChars a) ['h'] hdig
    (head_one _ ⟨by decide, by decide, by decide⟩)]
  rw [findUnit_cons_none 's' 'h' []
    (matchAt_none_of_head_not_digit 's' _ (head_one _ (by decide)))]
  rfl

theorem findUnit_m_mOnly (b : Nat) :
    findUnit 'm' (natToChars b ++ ['m']) = some b := by
  obtain ⟨hne, hdig, hval⟩ := natToChars_spec b
  rw [findUnit_head_digits 'm' (natToChars b) 'm' [] hne hdig (by decide)
    (by decide) (by decide), hval]

theorem findUnit_h_mOnly (b : Nat) :
    findUnit 'h' (natToChars b ++ ['m']) = none := by
  obtain ⟨-, hdig, -⟩ := natToChars_spec b
  rw [findUnit_digit_run 'h' (natToChars b) ['m'] hdig
    (head_one _ ⟨by decide, by decide, by decide⟩)]
  rw [findUnit_cons_none 'h' 'm' []
    (matchAt_none_of_head_not_digit 'h' _ (head_one _ (by decide)))]
  rfl

theorem findUnit_s_mOnly (b : Nat) :
    findUnit 's' (natToChars b ++ ['m']) = none := by
  obtain ⟨-, hdig, -⟩ := natToChars_spec b
  rw [findUnit_digit_run 's' (natToChars b) ['m'] hdig
    (head_one _ ⟨by decide, by decide, by decide⟩)]
  rw [findUnit_cons_none 's' 'm' []
    (matchAt_none_of_head_not_digit 's' _ (head_one _ (by decide)))]
  rfl

theorem mk_append (l m : List Char) :
    String.mk l ++ String.mk m = String.mk (l ++ m) := rfl

theorem mk_toList (l : List Char) : (String.mk l).toList = l := rfl

theorem mk_ne_empty (l : List Char) (h : l ≠ []) : String.mk l ≠ "" :=
  fun he => h (congrArg String.data he)

theorem toDecString_hm (a b : Nat) :
    toDecimalString a ++ "h " ++ toDecimalString b ++ "m" =
      String.mk (natToChars a ++ 'h' :: ' ' :: (natToChars b ++ ['m'])) := by
  simp only [toDecimalString]
  rw [show ("h " : String) = String.mk ['h', ' '] from rfl,
    show ("m" : String) = String.mk ['m'] from rfl,
    mk_append, mk_append, mk_append]
  congr 1
  simp [List.append_assoc]

theorem toDecString_h (a : Nat) :
    toDecimalString a ++ "h" = String.mk (natToChars a ++ ['h']) := by
  simp only [toDecimalString]
  rw [show ("h" : String) = String.mk ['h'] from rfl, mk_append]

theorem toDecString_m (b : Nat) :
    toDecimalString b ++ "m" = String.mk (natToChars b ++ ['m']) := by
  simp only [toDecimalString]
  rw [show ("m" : String) = String.mk ['m'] from rfl, mk_append]

theorem floor_div_sixty (m : Nat) :
    ⌊(m : ℚ) / 60⌋ = ((m / 60 : Nat) : ℤ) := by
  rw [Int.floor_eq_iff]
  constructor
  · rw [le_div_iff (by norm_num : (0 : ℚ) < 60)]
    push_cast
    exact_mod_cast Nat.div_mul_le_self m 60
  · rw [div_lt_iff (by norm_num : (0 : ℚ) < 60)]
    push_cast
    have h2 : m < (m / 60 + 1) * 60 := by omega
    exact_mod_cast h2

theorem jsRound_natCast (k : Nat) : jsRound (k : ℚ) = (k : ℤ) := by
  rw [jsRound, Int.floor_eq_iff]
  constructor
  · push_cast
    linarith
  · push_cast
    linarith

theorem sub_sixty_floor (m : Nat) :
    (m : ℚ) - 60 * (⌊(m : ℚ) / 60⌋ : ℚ) = ((m % 60 : Nat) : ℚ) := by
  rw [floor_div_sixty, Int.cast_natCast]
  have hc : (60 * ((m / 60 : Nat) : ℚ) + ((m % 60 : Nat) : ℚ)) = (m : ℚ) := by
    exact_mod_cast Nat.div_add_mod m 60
  linarith

theorem jsRound_sub_floor (m : Nat) :
    jsRound ((m : ℚ) - 60 * (⌊(m : ℚ) / 60⌋ : ℚ)) = ((m % 60 : Nat) : ℤ) := by
  rw [sub_sixty_floor, jsRound_natCast]

set_option maxHeartbeats 1000000 in
/-- C6 (amended): the round-trip `parseTimeToMinutes ∘ formatMinutesToTime`
is the identity on every integer minute count `m ≥ 1`; at `m = 0` the
formatter emits the sub-minute sentinel `"< 1m"`, which reparses to `1`,
not `0`. -/
theorem c6_parse_format_roundtrip (m : Nat) (hm : 1 ≤ m) :
    parseTimeToMinutes (formatMinutesToTime (m : ℚ)) = (m : ℚ) := by
  have hge : (1 : ℚ) ≤ (m : ℚ) := by exact_mod_cast hm
  have hlt : ¬ ((m : ℚ) < 1) := not_lt.mpr hge
  rw [formatMinutesToTime, if_neg hlt, jsRound_sub_floor, floor_div_sixty]
  simp only [Int.toNat_ofNat]
  have hc : (60 * ((m / 60 : Nat) : ℚ) + ((m % 60 : Nat) : ℚ)) = (m : ℚ) := by
    exact_mod_cast Nat.div_add_mod m 60
  by_cases ha : 0 < m / 60 <;> by_cases hb : 0 < m % 60
  · rw [if_pos ⟨ha, hb⟩, toDecString_hm]
    rw [parseTimeToMinutes, if_neg (mk_ne_empty _ (by simp))]
    simp only [mk_toList]
    rw [findUnit_h_hm (m / 60) (m % 60), findUnit_m_hm (m / 60) (m % 60),
      findUnit_s_hm (m / 60) (m % 60)]
    show ((m / 60 : Nat) : ℚ) * 60 + ((m % 60 : Nat) : ℚ) + 0 / 60 = (m : ℚ)
    norm_num
    linarith
  · rw [if_neg (fun hcon => hb hcon.2), if_pos ha, toDecString_h]
    rw [parseTimeToMinutes, if_neg (mk_ne_empty _ (by simp))]
    simp only [mk_toList]
    rw [findUnit_h_hOnly (m / 60), findUnit_m_hOnly (m / 60),
      findUnit_s_hOnly (m / 60)]
    show ((m / 60 : Nat) : ℚ) * 60 + 0 + 0 / 60 = (m : ℚ)
    have hb0 : ((m % 60 : Nat) : ℚ) = 0 := by
      rw [show m % 60 = 0 from by omega]
      norm_num
    norm_num
    linarith
  · rw [if_neg (fun hcon => ha hcon.1), if_neg ha, toDecString_m]
    rw [parseTimeToMinutes, if_neg (mk_ne_empty _ (by simp))]
    simp only [mk_toList]
    rw [findUnit_h_mOnly (m % 60), findUnit_m_mOnly (m % 60),
      findUnit_s_mOnly (m % 60)]
    show (0 : ℚ) * 60 + ((m % 60 : Nat) : ℚ) + 0 / 60 = (m : ℚ)
    have h3 : ((m % 60 : Nat) : ℚ) = (m : ℚ) := by
      exact_mod_cast show m % 60 = m from by omega
    rw [h3]
    norm_num
  · exfalso
    omega

/-- C6 counterexample: at `m = 0` the formatter emits the sub-minute
sentinel `"< 1m"`, and the parser reads the `1m` inside it back as one
minute, so the round-trip returns `1`, not `0`. -/
theorem c6_zero_counterexample :
    parseTimeToMinutes (formatMinutesToTime 0) = 1 ∧ (1 : ℚ) ≠ 0 := by
  constructor
  · rw [formatMinutesToTime, if_pos (by norm_num : (0 : ℚ) < 1)]
    rw [parseTimeToMinutes, if_neg (by decide)]
    norm_num [show findUnit 'h' ['<', ' ', '1', 'm'] = none from by decide,
      show findUnit 'm' ['<', ' ', '1', 'm'] = some 1 from by decide,
      show findUnit 's' ['<', ' ', '1', 'm'] = none from by decide]
  · norm_num

/-- C6 witness: the amended round-trip applies at 222 minutes
(`"3h 42m"`). -/
theorem c6_witness :
    1 ≤ 222 ∧
      parseTimeToMinutes (formatMinutesToTime ((222 : Nat) : ℚ)) =
        ((222 : Nat) : ℚ) :=
  ⟨by decide, c6_parse_format_roundtrip 222 (by decide)⟩

end EldenBingo
